import Mathlib

/-!
# Verification of the pyquiz symbolic expression engine specification

This file gives a shallow embedding, in Lean 4, of the expression engine of
the pyquiz repository (package `pyquiz.expr`: modules `core.py`, `arith.py`,
`matrix.py`, `deriv.py`, and the scoped-configuration module `dynamic.py`),
and proves or refutes the frozen claims about it.

Modelling conventions:

* A Python value handled by the engine (`int`, `Fraction`, `float`, `str`,
  `list`, `tuple`, or `Expr`) is a `Val`.  Numbers carry a tag recording
  their Python type, because the engine branches on `type(x)` in several
  rules; the payload of every number is its exact rational value.  A Python
  `float` is represented by the exact rational value of the IEEE-754 double;
  equality comparisons between Python numbers compare exact values, so this
  representation is faithful for equality.  Floating-point *arithmetic*
  rounds in Python; the only place the engine can perform non-trivial float
  arithmetic is modelled by `floatPow`, which returns the exact result when
  the mathematical power is rational and a default otherwise (see its
  docstring); no claim below depends on an approximated float value.
* Argument sequences are a mutually-inductive list type `ValList`, so that
  every function of the embedding is structurally recursive and reduces in
  the kernel; `ValList.toList`/`ofList` convert to ordinary lists.
* Python exceptions are values of `PyErr`; the rewrite-rule protocol's
  `Inapplicable` exception is one of its constructors.  A computation in the
  engine lives in the monad `M := ExceptT PyErr Option`, where the `Option`
  layer is evaluation fuel: `ExceptT.mk none` means "out of fuel" (the
  Python evaluator has no termination guarantee, so the embedding is
  fuel-indexed) and `throw` is a raised Python exception.
* Python `==` is `peq`; it compares numbers by value across numeric types
  and everything else structurally, matching `Expr.__eq__` in `core.py`.
-/

namespace Pyquiz

/-- The tag-and-value representation of a Python number: `int`, a
`fractions.Fraction` (always normalized, which `Rat` guarantees), or a
`float` represented by its exact rational value. -/
inductive NumV where
  | int : Int → NumV
  | frac : Rat → NumV
  | float : Rat → NumV
deriving DecidableEq, Repr

/-- The exact rational value of a Python number. -/
def NumV.val : NumV → Rat
  | .int i => i
  | .frac q => q
  | .float q => q

/-- Whether a Python number is an `int` or a `Fraction`
(`type(x) in (int, Fraction)`). -/
def NumV.isExact : NumV → Bool
  | .int _ => true
  | .frac _ => true
  | .float _ => false

mutual

/-- A Python value manipulated by the pyquiz expression engine: a number, a
string, a list, a tuple, or an `Expr` (a head together with a sequence of
arguments, `core.py` class `Expr`). -/
inductive Val where
  | num : NumV → Val
  | str : String → Val
  | list : ValList → Val
  | tup : ValList → Val
  | expr : Val → ValList → Val
deriving DecidableEq, Repr

/-- A sequence of engine values (a Python list/tuple payload or an `Expr`
argument list). -/
inductive ValList where
  | nil : ValList
  | cons : Val → ValList → ValList
deriving DecidableEq, Repr

end

/-- Convert an argument sequence to an ordinary list. -/
def ValList.toList : ValList → List Val
  | .nil => []
  | .cons x xs => x :: xs.toList

/-- Convert an ordinary list to an argument sequence. -/
def ValList.ofList : List Val → ValList
  | [] => .nil
  | x :: xs => .cons x (ValList.ofList xs)

/-- Concatenation of argument sequences. -/
def ValList.append : ValList → ValList → ValList
  | .nil, ys => ys
  | .cons x xs, ys => .cons x (xs.append ys)

instance : Append ValList := ⟨ValList.append⟩

/-- Length of an argument sequence (`len` in Python). -/
def ValList.length : ValList → Nat
  | .nil => 0
  | .cons _ xs => xs.length + 1

mutual

/-- Python `==` on engine values: numbers compare by exact value whatever
their type tag; lists and tuples compare elementwise (a list never equals a
tuple); `Expr`s compare by head, argument count and arguments
(`Expr.__eq__` in `core.py`); everything else is unequal. -/
def peq : Val → Val → Bool
  | .num a, .num b => a.val = b.val
  | .str a, .str b => a = b
  | .list a, .list b => peqList a b
  | .tup a, .tup b => peqList a b
  | .expr h1 a1, .expr h2 a2 => peq h1 h2 && a1.length = a2.length && peqList a1 a2
  | _, _ => false

/-- Elementwise Python `==` of two value sequences. -/
def peqList : ValList → ValList → Bool
  | .nil, .nil => true
  | .cons x xs, .cons y ys => peq x y && peqList xs ys
  | _, _ => false

end

/-- `head(e)` from `core.py`: `"number"` for numbers, `"string"` for
strings, `"list"` for lists and tuples, and the `head` attribute of an
`Expr`. -/
def headOf : Val → Val
  | .num _ => .str "number"
  | .str _ => .str "string"
  | .list _ => .str "list"
  | .tup _ => .str "list"
  | .expr h _ => h

mutual

/-- Whether a value is hashable in Python: `Expr` defines `__eq__` without
`__hash__` and is therefore unhashable, as are lists; tuples are hashable
iff their elements are.  The evaluator looks heads up in the `attributes`
dictionary, which raises `TypeError` for unhashable heads. -/
def hashable : Val → Bool
  | .num _ => true
  | .str _ => true
  | .list _ => false
  | .expr _ _ => false
  | .tup xs => hashableList xs

/-- Hashability of every element of a sequence. -/
def hashableList : ValList → Bool
  | .nil => true
  | .cons x xs => hashable x && hashableList xs

end

/-- Whether a head carries the `"Flat"` attribute (`core.py` registers it
for `"Plus"` and `"Times"`). -/
def isFlat : Val → Bool
  | .str s => s = "Plus" || s = "Times"
  | _ => false

/-- The associativity-flattening step of `evaluate`: every argument whose
head equals the (Flat) head `h` is replaced by its spliced-in arguments. -/
def flattenArgs (h : Val) : ValList → ValList
  | .nil => .nil
  | .cons a rest =>
    match a with
    | .expr h2 as2 =>
      if peq h2 h then as2 ++ flattenArgs h rest
      else .cons (.expr h2 as2) (flattenArgs h rest)
    | _ => .cons a (flattenArgs h rest)

/-- A Python exception raised by the engine: the rule-protocol signal
`Inapplicable`, or an error exception (`ValueError`, `ZeroDivisionError`,
`TypeError`, `AssertionError`, plain `Exception`), distinguished only by
kind and message. -/
inductive PyErr where
  | inapplicable
  | valueError (msg : String)
  | zeroDivision
  | typeError (msg : String)
  | assertion (msg : String)
  | exception (msg : String)
deriving DecidableEq, Repr

/-- The computation monad of the embedded engine: `PyErr` exceptions over an
`Option` fuel layer (`ExceptT.mk none` = evaluation fuel exhausted). -/
abbrev M (α : Type) : Type := ExceptT PyErr Option α

/-- The out-of-fuel computation. -/
def noFuel {α : Type} : M α := ExceptT.mk none

/-! ## Python numeric semantics

Exact embeddings of the arithmetic the engine performs on raw Python
numbers (`int`, `Fraction`, `float`).  The type tag of a result follows
CPython: `int` arithmetic stays `int`, a `Fraction` operand makes the
result a `Fraction`, a `float` operand makes it a `float`. -/

/-- Python `+` on two numbers. -/
def nAdd (a b : NumV) : NumV :=
  match a, b with
  | .int x, .int y => .int (x + y)
  | .float x, _ => .float (x + b.val)
  | _, .float y => .float (a.val + y)
  | _, _ => .frac (a.val + b.val)

/-- Python `*` on two numbers. -/
def nMul (a b : NumV) : NumV :=
  match a, b with
  | .int x, .int y => .int (x * y)
  | .float x, _ => .float (x * b.val)
  | _, .float y => .float (a.val * y)
  | _, _ => .frac (a.val * b.val)

/-- Python unary `-` on a number. -/
def nNeg : NumV → NumV
  | .int x => .int (-x)
  | .frac x => .frac (-x)
  | .float x => .float (-x)

/-- Python `abs` (the builtin, `py_abs` in `arith.py`) on a number. -/
def nAbs : NumV → NumV
  | .int x => .int |x|
  | .frac x => .frac |x|
  | .float x => .float |x|

/-- The `n`-th root of a natural number, when exact. -/
def natRoot (n k : Nat) : Option Nat :=
  (List.range (k + 2)).find? fun r => r ^ n = k

/-- The `n`-th root of a nonnegative rational, when exact. -/
def ratRoot (n : Nat) (q : Rat) : Option Rat := do
  let a ← natRoot n q.num.toNat
  let b ← natRoot n q.den
  pure ((a : Rat) / (b : Rat))

/-- Python float `**` (both operands viewed as floats).  `0.0` to a
negative power raises `ZeroDivisionError`; a negative base with a
non-integral exponent yields a `complex`, which never flows back into the
engine's numeric rules and is modelled as an opaque exception.  When the
mathematical power `a ^ (n/d)` is rational it is returned exactly (the
IEEE-754 rounding of representable results is not modelled); when it is
irrational, CPython would produce an approximation — the embedding makes
no claim about such evaluations and signals a dedicated exception, so
they fall outside the `.ok` fragment every theorem below quantifies
over. -/
def floatPow (a b : Rat) : Except PyErr NumV :=
  if a = 0 then
    if b < 0 then .error .zeroDivision else if b = 0 then .ok (.float 1) else .ok (.float 0)
  else if a < 0 then
    if b.den = 1 then .ok (.float (a ^ b.num)) else .error (.exception "complex result")
  else
    match ratRoot b.den (a ^ b.num) with
    | some r => .ok (.float r)
    | none => .error (.exception "irrational float approximation not modelled")

/-- Exact `Fraction ** int` (CPython `Fraction.__pow__` with an integral
exponent): raises `ZeroDivisionError` on `Fraction(0)` to a negative
power. -/
def fracZPow (a : Rat) (n : Int) : Except PyErr NumV :=
  if a = 0 ∧ n < 0 then .error .zeroDivision else .ok (.frac (a ^ n))

/-- Python builtin `pow`/`**` on two numbers, following CPython dispatch:
`int ** int` is an `int` for nonnegative exponents and a `float` (or
`ZeroDivisionError`) for negative ones; a `Fraction` operand gives the
exact `Fraction` power when the exponent is integral
(`Fraction.__pow__`/`__rpow__`) and otherwise falls back to float power;
a `float` operand always falls back to float power. -/
def pyNumPow (a b : NumV) : Except PyErr NumV :=
  match a, b with
  | .float x, _ => floatPow x b.val
  | _, .float y => floatPow a.val y
  | .int x, .int y =>
    if 0 ≤ y then .ok (.int (x ^ y.toNat))
    else if x = 0 then .error .zeroDivision
    else floatPow (x : Rat) (y : Rat)
  | .int x, .frac y =>
    if y.den = 1 then
      if 0 ≤ y.num then .ok (.int (x ^ y.num.toNat)) else fracZPow (x : Rat) y.num
    else floatPow (x : Rat) y
  | .frac x, .int y => fracZPow x y
  | .frac x, .frac y =>
    if y.den = 1 then fracZPow x y.num else floatPow x y

/-! ## Value shorthands -/

/-- Shorthand for `ValList.ofList`. -/
def VL : List Val → ValList := ValList.ofList

/-- Build an `Expr` with a string head from a list of arguments
(`expr(head, *args)` in `core.py`). -/
def mkE (h : String) (args : List Val) : Val := .expr (.str h) (VL args)

/-- A Python `int` literal as a value. -/
def iV (n : Int) : Val := .num (.int n)

/-- A Python `Fraction` literal as a value. -/
def qV (q : Rat) : Val := .num (.frac q)

/-- `var(name)` from `core.py` (validation elided: the embedding's name is
always a string). -/
def varE (name : String) : Val := mkE "var" [.str name]

/-- `const(name)` from `core.py`. -/
def constE (name : String) : Val := mkE "const" [.str name]

/-- The constant `E = const("e")` of `arith.py`. -/
def cExp : Val := constE "e"

/-- The constant `I = const("i")` of `arith.py`. -/
def cI : Val := constE "i"

/-- The constant `Pi` of `arith.py` (LaTeX name). -/
def cPi : Val := constE "\\pi"

/-! ## Prime factorization (`factors` in `arith.py`)

The Python loops are embedded as fuel-structural recursions so that every
definition reduces in the kernel; each call site supplies fuel that is
provably sufficient. -/

/-- The inner `while a % p == 0` loop of `factors`: divide `p` out of `a`,
returning the multiplicity and the quotient. -/
def divOutN : Nat → Nat → Nat → Nat × Nat
  | 0, _, a => (0, a)
  | fuel+1, p, a =>
    if a % p = 0 ∧ 0 < a / p then
      let (n, a2) := divOutN fuel p (a / p)
      (n + 1, a2)
    else (0, a)

/-- The odd-trial-division loop of `factors` (`p = 3, 5, 7, ...`). -/
def oddFac : Nat → Nat → Nat → List (Int × Nat)
  | 0, _, _ => []
  | fuel+1, p, a =>
    if p ≤ a then
      let (n, a2) := divOutN a p a
      (if n ≠ 0 then [((p : Int), n)] else []) ++ oddFac fuel (p + 2) a2
    else []

/-- `factors(a)` from `arith.py`: the prime factorization of an integer as
a list of `(p, n)` pairs, with a leading `(-1, 1)` for negative input.
`factors(0)` does not terminate in Python and is never called; the
embedding returns `[]` there. -/
def factors (a : Int) : List (Int × Nat) :=
  if a = 0 then []
  else
    let s : List (Int × Nat) := if a < 0 then [(-1, 1)] else []
    let a1 : Nat := a.natAbs
    let (n2, a2) := divOutN a1 2 a1
    s ++ (if n2 ≠ 0 then [((2 : Int), n2)] else []) ++ oddFac (a2 + 2) 3 a2

/-! ## `rule_times_frac_collect` (`arith.py`)

This rule is a pure computation: it scans the arguments of a `Times` for
integers, `Fraction`s, and `Pow`s of positive rationals by rationals,
accumulates a prime-exponent map, and rebuilds a canonical leading
rational together with minimal radical factors. -/

/-- Modelled from the spec: `norm_num` is imported by `arith.py` from
`pyquiz.expr.core` but is absent from the repository snapshot.  Per the
spec's data model ("Integer, Exact rational (numerator/denominator reduced
to lowest terms)"), it normalizes an exact rational to a Python `int` when
its denominator is 1 and to a `Fraction` otherwise. -/
def norm_num (q : Rat) : NumV :=
  if q.den = 1 then .int q.num else .frac q

/-- `numbers[p] = numbers.get(p, 0) + m*e`: update an insertion-ordered
association list of prime exponents. -/
def addFactor (p : Int) (e : Rat) : List (Int × Rat) → List (Int × Rat)
  | [] => [(p, e)]
  | (q, x) :: rest =>
    if q = p then (q, x + e) :: rest else (q, x) :: addFactor p e rest

/-- `process(n, e)` of `rule_times_frac_collect`: add an `n ** e` factor to
the prime-exponent map. -/
def processFac (n : Int) (e : Rat) (m : List (Int × Rat)) : List (Int × Rat) :=
  (factors n).foldl (fun m pk => addFactor pk.1 ((pk.2 : Rat) * e) m) m

/-- State of the argument scan of `rule_times_frac_collect`: the
prime-exponent map, the accumulated sign, and the non-collected arguments
in reverse order. -/
structure FCScan where
  numbers : List (Int × Rat)
  isNeg : Bool
  revRest : List Val
deriving Repr

/-- One argument step of the scan of `rule_times_frac_collect`. -/
def fcStep (st : FCScan) (arg : Val) : Except PyErr FCScan :=
  match arg with
  | .num v =>
    if v.isExact ∧ v.val ≠ 0 then
      let p := v.val.num
      let q := (v.val.den : Int)
      let (neg, p) := if p < 0 then (!st.isNeg, -p) else (st.isNeg, p)
      .ok { st with numbers := processFac q (-1) (processFac p 1 st.numbers), isNeg := neg }
    else .ok { st with revRest := arg :: st.revRest }
  | .expr h args =>
    if ¬ peq h (.str "Pow") then
      .ok { st with revRest := arg :: st.revRest }
    else
      -- head is "Pow": Python accesses arg.args[0] and arg.args[1]
      match args with
      | .cons a0 (.cons a1 _) =>
        match a0, a1 with
        | .num b, .num e =>
          if b.isExact ∧ 0 < b.val ∧ e.isExact then
            let p := b.val.num
            let q := (b.val.den : Int)
            .ok { st with numbers := processFac q (-e.val) (processFac p e.val st.numbers) }
          else .ok { st with revRest := arg :: st.revRest }
        | _, _ => .ok { st with revRest := arg :: st.revRest }
      | _ => .error (.exception "IndexError")
  | _ => .ok { st with revRest := arg :: st.revRest }

/-- The truncated quotient-and-remainder used by `rule_times_frac_collect`
on an exponent `e = n/d`: for `n < 0` it computes `quo = -((-n) // d)` and
`rem = -((-n) % d)`, otherwise Python floor division. -/
def quoRem (n : Int) (d : Nat) : Int × Int :=
  if n < 0 then (-((-n) / d), -((-n) % d)) else (n / d, n % d)

/-- Insert-or-multiply into the denominator-keyed map `edenoms`, kept
sorted by key (the Python dict is insertion-ordered and iterated over
`sorted(edenoms.keys())`; keeping the association list sorted and
accumulating multiplicatively yields the identical iteration). -/
def addEdenom (d : Nat) (f : Rat) : List (Nat × Rat) → List (Nat × Rat)
  | [] => [(d, f)]
  | (k, x) :: rest =>
    if k = d then (k, x * f) :: rest
    else if d < k then (d, f) :: (k, x) :: rest
    else (k, x) :: addEdenom d f rest

/-- From the prime-exponent map, compute the leading rational and the
`edenoms` map of `rule_times_frac_collect`. -/
def fcLeading (numbers : List (Int × Rat)) (isNeg : Bool) : Rat × List (Nat × Rat) :=
  numbers.foldl
    (fun st pe =>
      let (quo, rem) := quoRem pe.2.num pe.2.den
      ((st.1 * (pe.1 : Rat) ^ quo), addEdenom pe.2.den ((pe.1 : Rat) ^ rem) st.2))
    ((if isNeg then -1 else 1 : Rat), [])

/-- Rebuild the canonical numeric factors (`nums`) of
`rule_times_frac_collect` from the leading rational and the `edenoms`
map. -/
def fcNums (leading : Rat) (edenoms : List (Nat × Rat)) : List Val :=
  (if leading ≠ 1 then [Val.num (norm_num leading)] else []) ++
    edenoms.foldr
      (fun ke acc =>
        if ke.2 ≠ 1 then
          (if ke.2.num = 1 then
            mkE "Pow" [iV ke.2.den, qV ((-1 : Rat) / (ke.1 : Rat))]
          else
            mkE "Pow" [.num (norm_num ke.2), qV ((1 : Rat) / (ke.1 : Rat))]) :: acc
        else acc)
      []

/-! ## Python operator dispatch

`Expr` overloads the arithmetic operators to call `evaluate` on a freshly
built node (`core.py`); on raw numbers Python arithmetic applies directly.
Each helper takes the evaluator `E` as a parameter. -/

/-- Lift an exception-or-value into the engine monad. -/
def liftE {α : Type} (r : Except PyErr α) : M α := ExceptT.mk (some r)

/-- An evaluator function, as passed to rules and operator helpers. -/
abbrev Ev : Type := Val → M Val

/-- Repeat a sequence `k` times (Python `seq * int`). -/
def repeatSeq (k : Int) (xs : ValList) : ValList :=
  match k with
  | .ofNat n => (List.range n).foldl (fun acc _ => acc ++ xs) .nil
  | .negSucc _ => .nil

/-- Python `a + b` on engine values: numeric addition, `Expr` overloading
through the evaluator, and sequence/string concatenation. -/
def pyAdd (E : Ev) (a b : Val) : M Val :=
  match a, b with
  | .num x, .num y => pure (.num (nAdd x y))
  | .expr _ _, _ => E (mkE "Plus" [a, b])
  | _, .expr _ _ => E (mkE "Plus" [a, b])
  | .list xs, .list ys => pure (.list (xs ++ ys))
  | .tup xs, .tup ys => pure (.tup (xs ++ ys))
  | .str s, .str t => pure (.str (s ++ t))
  | _, _ => throw (.typeError "unsupported operand type(s) for +")

/-- Python `a * b` on engine values: numeric multiplication, `Expr`
overloading through the evaluator, and sequence/string repetition by an
`int`. -/
def pyMul (E : Ev) (a b : Val) : M Val :=
  match a, b with
  | .num x, .num y => pure (.num (nMul x y))
  | .expr _ _, _ => E (mkE "Times" [a, b])
  | _, .expr _ _ => E (mkE "Times" [a, b])
  | .num (.int k), .list xs => pure (.list (repeatSeq k xs))
  | .list xs, .num (.int k) => pure (.list (repeatSeq k xs))
  | .num (.int k), .tup xs => pure (.tup (repeatSeq k xs))
  | .tup xs, .num (.int k) => pure (.tup (repeatSeq k xs))
  | .num (.int k), .str s =>
    pure (.str ((List.range k.toNat).foldl (fun acc _ => acc ++ s) ""))
  | .str s, .num (.int k) =>
    pure (.str ((List.range k.toNat).foldl (fun acc _ => acc ++ s) ""))
  | _, _ => throw (.typeError "unsupported operand type(s) for *")

/-- Python `a - b` on engine values (`Expr.__sub__` builds
`Plus(a, Times(-1, b))`). -/
def pySub (E : Ev) (a b : Val) : M Val :=
  match a, b with
  | .num x, .num y => pure (.num (nAdd x (nNeg y)))
  | .expr _ _, _ => E (mkE "Plus" [a, mkE "Times" [iV (-1), b]])
  | _, .expr _ _ => E (mkE "Plus" [a, mkE "Times" [iV (-1), b]])
  | _, _ => throw (.typeError "unsupported operand type(s) for -")

/-- Python unary `-a` on engine values. -/
def pyNeg (E : Ev) (a : Val) : M Val :=
  match a with
  | .num x => pure (.num (nNeg x))
  | .expr _ _ => E (mkE "Times" [iV (-1), a])
  | _ => throw (.typeError "bad operand type for unary -")

/-- Python `pow(a, b)` / `a ** b` on engine values. -/
def pyPowOp (E : Ev) (a b : Val) : M Val :=
  match a, b with
  | .num x, .num y => liftE ((pyNumPow x y).map Val.num)
  | .expr _ _, _ => E (mkE "Pow" [a, b])
  | _, .expr _ _ => E (mkE "Pow" [a, b])
  | _, _ => throw (.typeError "unsupported operand type(s) for **")

/-- Python `sum(...)` over a list of engine values: a left fold of `+`
starting from the `int` `0`. -/
def sumPy (E : Ev) (xs : List Val) : M Val :=
  xs.foldlM (fun acc x => pyAdd E acc x) (iV 0)

/-- `e[i]`/`e[i, j]` on an `Expr` (`Expr.__getitem__` evaluates a `Part`
node). -/
def pyGetItem (E : Ev) (m : Val) (idxs : List Val) : M Val :=
  E (mkE "Part" (m :: idxs))

/-- `frac(a, b)` from `core.py`: exact division through the evaluator. -/
def fracF (E : Ev) (a b : Val) : M Val :=
  E (mkE "Times" [a, mkE "Pow" [b, iV (-1)]])

/-! ## Matrix access helpers -/

/-- Read a `matrix`-headed node as a list of rows; `none` when the head is
not `"matrix"`.  Rows that are not Python lists make the Python code fail
at `len`/indexing; the embedding treats such rows as absent (`none` from
`rowsOf`), which surfaces as the corresponding Python error at each use
site. -/
def rowsOf (e : Val) : Option (List (List Val)) :=
  match e with
  | .expr h args =>
    if peq h (.str "matrix") then
      args.toList.mapM fun a => match a with | .list r => some r.toList | _ => none
    else none
  | _ => none

/-- Whether `head(e) == "matrix"`. -/
def isMatrixHead (e : Val) : Bool := peq (headOf e) (.str "matrix")

/-- `matrix(*rows)` from `matrix.py`: validates that there is at least one
row and one column and that the rows have equal length. -/
def mkMatrix (rows : List (List Val)) : Except PyErr Val :=
  match rows with
  | [] => .error (.valueError "We require matrices to have at least one row and column.")
  | r0 :: rest =>
    if r0.length = 0 then
      .error (.valueError "We require matrices to have at least one row and column.")
    else if rest.any (fun r => r.length ≠ r0.length) then
      .error (.valueError "Not all rows in the matrix have the same length.")
    else
      .ok (.expr (.str "matrix") (VL ((r0 :: rest).map fun r => .list (VL r))))

/-- `vector(*elts)` from `matrix.py`. -/
def mkVector (elts : List Val) : Except PyErr Val :=
  match elts with
  | [] => .error (.valueError "We require vectors to have at least one row.")
  | _ => .ok (.expr (.str "matrix") (VL (elts.map fun x => .list (VL [x]))))

/-- `identity_matrix(n)` from `matrix.py`. -/
def identityMatrix (n : Nat) : Except PyErr Val :=
  if n = 0 then .error (.valueError "We require matrices to have at least one row and column.")
  else mkMatrix ((List.range n).map fun i => (List.range n).map fun j => iV (if i = j then 1 else 0))

/-- `cols(e)` from `matrix.py`: the columns of a matrix as column vectors
(`zip(*e.args)` truncates to the shortest row, like Python `zip`). -/
def colsOf (rows : List (List Val)) : List (List Val) :=
  let n := rows.foldr (fun r acc => min r.length acc) (rows.headD []).length
  (List.range n).map fun j => rows.map fun r => r.getD j (iV 0)

/-- A downvalue: a function from the evaluator and the (evaluated,
flattened) expression to a candidate replacement; `Inapplicable` is thrown
when the rule does not apply.  Arity gating by the `downvalue` wrapper is
performed by the argument patterns of each embedded rule. -/
abbrev RuleFn : Type := Ev → Val → M Val

/-- `split_summand` from `arith.py`. -/
def splitSummand (a : Val) : Val × Val :=
  match a with
  | .expr h args =>
    if peq h (.str "Times") ∧ 2 ≤ args.length then
      match args with
      | .cons a0 rest =>
        if peq (headOf a0) (.str "number") then
          if args.length = 2 then
            match rest with
            | .cons a1 _ => (a0, a1)
            | _ => (a0, a0)
          else (a0, .expr (.str "Times") rest)
        else (iV 1, a)
      | _ => (iV 1, a)
    else if peq h (.str "number") then (a, a) -- unreachable: an Expr head is never "number"
    else (iV 1, a)
  | .num _ => (a, iV 1)
  | _ => (iV 1, a)

/-- Add two coefficient values, which `split_summand` guarantees to be
Python numbers. -/
def numAddV (c coeff : Val) : Val :=
  match c, coeff with
  | .num x, .num y => .num (nAdd x y)
  | _, _ => c

/-- The term-merging loop of `rule_plus_collect`: add `coeff` to the first
term whose monomial equals `b`, else append. -/
def mergeTermP (coeff b : Val) : List (Val × Val) → List (Val × Val)
  | [] => [(coeff, b)]
  | (c, t) :: rest =>
    if peq b t then (numAddV c coeff, t) :: rest
    else (c, t) :: mergeTermP coeff b rest

/-- `rule_plus_collect` from `arith.py`: collect monomials, adding numeric
coefficients of repeated monomials. -/
def rulePlusCollect : RuleFn := fun E e => do
  match e with
  | .expr _ args => do
    let terms := args.toList.foldl (fun terms a =>
      let (coeff, b) := splitSummand a
      mergeTermP coeff b terms) []
    let args2 ← terms.foldlM (fun (acc : List Val) ct => do
      let t ← pyMul E ct.1 ct.2
      if peq t (iV 0) then pure acc else pure (acc ++ [t])) []
    match args2 with
    | [] => pure (iV 0)
    | [x] => pure x
    | _ => pure (mkE "Plus" args2)
  | _ => throw .inapplicable

/-- `split_multiplicand` from `arith.py`: `(exponent, base)` of a factor.
A `Pow` node with fewer than two arguments makes Python fail with
`IndexError`. -/
def splitMultiplicand (a : Val) : Except PyErr (Val × Val) :=
  match a with
  | .expr h args =>
    if peq h (.str "Pow") then
      match args with
      | .cons a0 (.cons a1 _) => .ok (a1, a0)
      | _ => .error (.exception "IndexError")
    else .ok (iV 1, a)
  | _ => .ok (iV 1, a)

/-- The factor-merging loop of `rule_times_collect`: add `exp` to the
exponent of the first base equal to `val`, else append. -/
def mergeTermT (E : Ev) (exp val : Val) : List (Val × Val) → M (List (Val × Val))
  | [] => pure [(exp, val)]
  | (e0, v0) :: rest =>
    if peq val v0 then do
      let e2 ← pyAdd E exp e0
      pure ((e2, v0) :: rest)
    else do
      let rest2 ← mergeTermT E exp val rest
      pure ((e0, v0) :: rest2)

/-- The output-sorting buckets of `rule_times_collect`: numbers, constants,
algebraic arguments, then other function applications. -/
def tcBucket (arg : Val) : Except PyErr Nat :=
  if peq (headOf arg) (.str "number") then .ok 0
  else if peq (headOf arg) (.str "Pow") then
    match arg with
    | .expr _ (.cons a0 _) =>
      if peq (headOf a0) (.str "number") then .ok 0
      else if peq (headOf a0) (.str "const") then .ok 1
      else .ok 2
    | _ => .error (.exception "IndexError")
  else if peq (headOf arg) (.str "const") then .ok 1
  else if peq (headOf arg) (.str "var") ∨ peq (headOf arg) (.str "Plus")
      ∨ peq (headOf arg) (.str "Times") then .ok 2
  else .ok 3

/-- Accumulator of the argument scan of `rule_times_collect`. -/
structure TCState where
  terms : List (Val × Val)
  coeff : NumV
  numMatrices : Nat

/-- One step of the argument scan of `rule_times_collect`: split the
factor into base and exponent, count matrix factors, fold number factors
into the coefficient, and merge the rest into the `(exponent, base)`
term list. -/
def tcStep (E : Ev) (st : TCState) (a : Val) : M TCState := do
  let (exp, val) ← liftE (splitMultiplicand a)
  let nm := if isMatrixHead val then st.numMatrices + 1 else st.numMatrices
  if 1 < nm then
    throw (.valueError "Use the @ operator to multiply matrices rather than *.")
  else if peq exp (iV 1) ∧ peq (headOf val) (.str "number") then
    match val with
    | .num v => pure { st with coeff := nMul st.coeff v, numMatrices := nm }
    | _ => pure { st with numMatrices := nm }
  else do
    let terms2 ← mergeTermT E exp val st.terms
    pure { st with terms := terms2, numMatrices := nm }

/-- `rule_times_collect` from `arith.py`: collect multiplicands of the
product, combining exponents. -/
def ruleTimesCollect : RuleFn := fun E e => do
  match e with
  | .expr _ args => do
    let st ← args.toList.foldlM (tcStep E) ⟨[], .int 1, 0⟩
    if st.coeff.val = 0 then pure (iV 0)
    else do
      let args0 : List Val := if st.coeff.val = 1 then [] else [.num st.coeff]
      let args2 ← st.terms.foldlM (fun (acc : List Val) ev => do
        let v ← if peq ev.1 (iV 1) then pure ev.2 else pyPowOp E ev.2 ev.1
        if peq v (iV 1) then pure acc else pure (acc ++ [v])) args0
      match args2 with
      | [] => pure (iV 1)
      | [x] => pure x
      | _ => do
        let tagged ← args2.mapM (fun a => do
          let b ← liftE (tcBucket a)
          pure (b, a))
        let sorted :=
          (tagged.filter (·.1 = 0)) ++ (tagged.filter (·.1 = 1)) ++
            (tagged.filter (·.1 = 2)) ++ (tagged.filter (·.1 = 3))
        pure (mkE "Times" (sorted.map (·.2)))
  | _ => throw .inapplicable

/-- `rule_times_frac_collect` from `arith.py`: put integers, fractions and
fractional powers of them into normal form.  The computation is pure. -/
def fracCollectCore (e : Val) : Except PyErr Val := do
  match e with
  | .expr _ args => do
    let argsL := args.toList
    let st ← argsL.foldlM fcStep ⟨[], false, []⟩
    let rest := st.revRest.reverse
    if rest.length = argsL.length then .error .inapplicable
    else
      let (leading, edenoms) := fcLeading st.numbers st.isNeg
      let nums := fcNums leading edenoms
      match rest, nums with
      | [], [] => pure (iV 1)
      | [], [x] => pure x
      | _, _ => pure (mkE "Times" (nums ++ rest))
  | _ => .error .inapplicable

/-- `rule_times_frac_collect` as a downvalue. -/
def ruleTimesFracCollect : RuleFn := fun _ e => liftE (fracCollectCore e)

/-- Whether a value is a number of type `int` or `Fraction`. -/
def isExactV : Val → Bool
  | .num v => v.isExact
  | _ => false

/-- Whether a value is a Python `int`. -/
def isIntV : Val → Bool
  | .num (.int _) => true
  | _ => false

/-- Whether a value is a Python `float`. -/
def isFloatV : Val → Bool
  | .num (.float _) => true
  | _ => false

/-- `rule_pow_constants` from `arith.py`: compute powers when numeric
constants are present. -/
def rulePowConstants : RuleFn := fun E e => do
  match e with
  | .expr _ (.cons a (.cons b .nil)) => do
    if peq b (iV 0) then pure (iV 1)
    else if peq b (iV 1) then pure a
    else
      match a with
      | .num av =>
        if av.val < 0 then do
          let t1 ← pyPowOp E (.num (nNeg av)) b
          let tb ← pyMul E (iV 2) b
          let t2 ← pyPowOp E cI tb
          pyMul E t1 t2
        else
          match b with
          | .num bv =>
            match bv with
            | .int n =>
              if av.isExact then liftE ((fracZPow av.val n).map Val.num)
              else liftE ((pyNumPow av bv).map Val.num)
            | .frac _ =>
              if av.isExact then liftE (fracCollectCore (mkE "Times" [mkE "Pow" [a, b]]))
              else liftE ((pyNumPow av bv).map Val.num)
            | .float _ => liftE ((pyNumPow av bv).map Val.num)
          | _ =>
            match av with
            | .float _ => pyPowOp E a b
            | _ => throw .inapplicable
      | _ =>
        if isFloatV b then pyPowOp E a b
        else throw .inapplicable
  | _ => throw .inapplicable

/-- `rule_pow_pow` from `arith.py`: `(a0 ** a1) ** b == a0 ** (a1 * b)`. -/
def rulePowPow : RuleFn := fun E e => do
  match e with
  | .expr _ (.cons a (.cons b .nil)) =>
    if peq (headOf a) (.str "Pow") then
      match a with
      | .expr _ (.cons a0 (.cons a1 _)) => do
        let m ← pyMul E a1 b
        pure (mkE "Pow" [a0, m])
      | _ => throw (.exception "IndexError")
    else throw .inapplicable
  | _ => throw .inapplicable

/-- `rule_mul_pow` from `arith.py`: `(a0 * a1) ** b == a0**b * a1**b` when
`b` is a number.  Note that it uses only the first two factors of the
product. -/
def ruleMulPow : RuleFn := fun E e => do
  match e with
  | .expr _ (.cons a (.cons b .nil)) =>
    if peq (headOf a) (.str "Times") ∧ peq (headOf b) (.str "number") then
      match a with
      | .expr _ (.cons a0 (.cons a1 _)) => do
        let p0 ← pyPowOp E a0 b
        let p1 ← pyPowOp E a1 b
        pyMul E p0 p1
      | _ => throw (.exception "IndexError")
    else throw .inapplicable
  | _ => throw .inapplicable

/-- `rule_I_pow` from `arith.py`: the power-cycle-of-4 reduction of the
imaginary unit. -/
def ruleIPow : RuleFn := fun E e => do
  match e with
  | .expr _ (.cons a (.cons b .nil)) =>
    match b with
    | .num (.int n) =>
      if peq a cI then
        let m := n % 4
        if m = 0 then pure (iV 1)
        else if m = 1 then pure cI
        else if m = 2 then pure (iV (-1))
        else pyNeg E cI
      else throw .inapplicable
    | _ => throw .inapplicable
  | _ => throw .inapplicable

/-- `rule_exp_ln` from `arith.py`: `E ** ln(x) == x`. -/
def ruleExpLn : RuleFn := fun _ e => do
  match e with
  | .expr _ (.cons a (.cons b .nil)) =>
    if peq a cExp ∧ peq (headOf b) (.str "ln") then
      match b with
      | .expr _ (.cons x _) => pure x
      | _ => throw (.exception "IndexError")
    else throw .inapplicable
  | _ => throw .inapplicable

/-- The `ln` downvalue from `arith.py`. -/
def ruleLn : RuleFn := fun _ e => do
  match e with
  | .expr _ (.cons x .nil) =>
    if peq x (iV 0) then throw (.valueError "ln(0) is undefined")
    else if peq x (iV 1) then pure (iV 0)
    else if peq x cExp then pure (iV 1)
    else if peq (headOf x) (.str "Pow") then
      match x with
      | .expr _ (.cons x0 rest) =>
        if peq x0 cExp then
          match rest with
          | .cons x1 _ => pure x1
          | _ => throw (.exception "IndexError")
        else throw .inapplicable
      | _ => throw (.exception "IndexError")
    else throw .inapplicable
  | _ => throw .inapplicable

/-- The `sin` downvalue from `arith.py`. -/
def ruleSin : RuleFn := fun _ e => do
  match e with
  | .expr _ (.cons x .nil) =>
    if peq x (iV 0) then pure (iV 0) else throw .inapplicable
  | _ => throw .inapplicable

/-- The `cos` downvalue from `arith.py`. -/
def ruleCos : RuleFn := fun _ e => do
  match e with
  | .expr _ (.cons x .nil) =>
    if peq x (iV 0) then pure (iV 1) else throw .inapplicable
  | _ => throw .inapplicable

/-- The `abs` downvalue from `arith.py`: absolute value of a literal
number. -/
def ruleAbs : RuleFn := fun _ e => do
  match e with
  | .expr _ (.cons x .nil) =>
    match x with
    | .num v => pure (.num (nAbs v))
    | _ => throw .inapplicable
  | _ => throw .inapplicable

/-! ## Matrix rules (`matrix.py`) -/

/-- A list element by index, raising Python's `IndexError` when out of
range. -/
def atE {α : Type} (xs : List α) (i : Nat) : Except PyErr α :=
  match xs.get? i with
  | some x => .ok x
  | none => .error (.exception "IndexError")

/-- Entry `(i, j)` (0-based) of a row list, with a junk default for
positions the source code guarantees to be in range. -/
def getEnt (mat : List (List Val)) (i j : Nat) : Val :=
  (mat.getD i []).getD j (iV 0)

/-- `rule_part_vector` from `matrix.py`: one-index (1-based) access into a
vector. -/
def rulePartVector : RuleFn := fun _ e => do
  match e with
  | .expr _ (.cons m (.cons idx .nil)) =>
    match idx with
    | .expr _ _ => throw .inapplicable
    | _ =>
      if ¬ isMatrixHead m then throw .inapplicable
      else
        match idx with
        | .num (.int k) =>
          match rowsOf m with
          | some rows => do
            let r0 ← liftE (atE rows 0)
            if r0.length ≠ 1 then
              throw (.valueError "Need two indices to index a matrix, not one.")
            else if ¬ (1 ≤ k ∧ k ≤ rows.length) then
              throw (.valueError "Index is out of bounds for vector.")
            else do
              let row ← liftE (atE rows (k - 1).toNat)
              liftE (atE row 0)
          | none => throw (.typeError "matrix rows are not lists")
        | _ => throw (.valueError "Expecting integer for index")
  | _ => throw .inapplicable

/-- `rule_part_matrix` from `matrix.py`: two-index (1-based) access into a
matrix.  (The source's error strings for non-integer indices reference an
undefined variable and so actually rise as `NameError`; either way an
exception propagates, which is all the embedding records.) -/
def rulePartMatrix : RuleFn := fun _ e => do
  match e with
  | .expr _ (.cons m (.cons idx1 (.cons idx2 .nil))) =>
    match idx1, idx2 with
    | .expr _ _, _ => throw .inapplicable
    | _, .expr _ _ => throw .inapplicable
    | _, _ =>
      if ¬ isMatrixHead m then throw .inapplicable
      else
        match idx1 with
        | .num (.int k1) =>
          match idx2 with
          | .num (.int k2) =>
            match rowsOf m with
            | some rows => do
              if ¬ (1 ≤ k1 ∧ k1 ≤ rows.length) then
                throw (.valueError "First index is out of bounds.")
              else do
                let r0 ← liftE (atE rows 0)
                if ¬ (1 ≤ k2 ∧ k2 ≤ r0.length) then
                  throw (.valueError "Second index is out of bounds.")
                else do
                  let row ← liftE (atE rows (k1 - 1).toNat)
                  liftE (atE row (k2 - 1).toNat)
            | none => throw (.typeError "matrix rows are not lists")
          | _ => throw (.valueError "Expecting integer for second index")
        | _ => throw (.valueError "Expecting integer for first index")
  | _ => throw .inapplicable

/-- The cofactor expansion of `det` (`matrix.py`), expanding along the
first column; fuel-structural on the matrix dimension. -/
def detExpand (E : Ev) : Nat → List (List Val) → M Val
  | 0, _ => noFuel
  | fuel+1, rows =>
    match rows with
    | [r] =>
      match r with
      | [x] => pure x
      | _ => throw (.assertion "det: expected a single entry")
    | _ =>
      (List.range rows.length).foldlM (fun acc i => do
        let row ← liftE (atE rows i)
        let entry ← liftE (atE row 0)
        let t1 ← pyMul E (iV ((-1) ^ i)) entry
        let sub := (rows.eraseIdx i).map (fun r => r.drop 1)
        let d ← detExpand E fuel sub
        let t2 ← pyMul E t1 d
        pyAdd E acc t2) (iV 0)

/-- The `det` downvalue from `matrix.py`. -/
def ruleDet : RuleFn := fun E e => do
  match e with
  | .expr _ (.cons m .nil) =>
    if ¬ isMatrixHead m then throw .inapplicable
    else
      match rowsOf m with
      | some rows => do
        let r0 ← liftE (atE rows 0)
        if rows.length ≠ r0.length then throw (.valueError "det expecting square matrix")
        else detExpand E (rows.length + 1) rows
      | none => throw (.typeError "matrix rows are not lists")
  | _ => throw .inapplicable

/-- The `tr` downvalue from `matrix.py`. -/
def ruleTr : RuleFn := fun E e => do
  match e with
  | .expr _ (.cons m .nil) =>
    if ¬ isMatrixHead m then throw .inapplicable
    else
      match rowsOf m with
      | some rows => do
        let r0 ← liftE (atE rows 0)
        if rows.length ≠ r0.length then throw (.valueError "trace of non-square matrix")
        else
          (List.range rows.length).foldlM (fun acc i => do
            let p ← pyGetItem E m [iV (i + 1), iV (i + 1)]
            pyAdd E acc p) (iV 0)
      | none => throw (.typeError "matrix rows are not lists")
  | _ => throw .inapplicable

/-- The `transpose` downvalue from `matrix.py`. -/
def ruleTranspose : RuleFn := fun _ e => do
  match e with
  | .expr _ (.cons m .nil) =>
    if ¬ isMatrixHead m then throw .inapplicable
    else
      match rowsOf m with
      | some rows => liftE (mkMatrix (colsOf rows))
      | none => throw (.typeError "matrix rows are not lists")
  | _ => throw .inapplicable

/-- The `dot` downvalue from `matrix.py`: sum of products of corresponding
entries of two same-shape matrices. -/
def ruleDot : RuleFn := fun E e => do
  match e with
  | .expr _ (.cons v (.cons w .nil)) =>
    if ¬ isMatrixHead v ∨ ¬ isMatrixHead w then throw .inapplicable
    else
      match rowsOf v, rowsOf w with
      | some rv, some rw => do
        if rv.length ≠ rw.length ∨ (rv.headD []).length ≠ (rw.headD []).length then
          throw (.valueError "incompatible vectors or matrices")
        else
          (rv.zip rw).foldlM (fun acc rr =>
            (rr.1.zip rr.2).foldlM (fun acc ab => do
              let p ← pyMul E ab.1 ab.2
              pyAdd E acc p) acc) (iV 0)
      | _, _ => throw (.typeError "matrix rows are not lists")
  | _ => throw .inapplicable

/-- `rule_scalar_multiplication` from `matrix.py`: a `Times` with a matrix
operand multiplies the remaining factors into every entry. -/
def ruleScalarMultiplication : RuleFn := fun E e => do
  match e with
  | .expr _ args =>
    let argsL := args.toList
    if argsL.length ≤ 1 then throw .inapplicable
    else
      match argsL.findIdx? isMatrixHead with
      | none => throw .inapplicable
      | some i => do
        let a ← liftE (atE argsL i)
        let rest ← E (mkE "Times" (argsL.take i ++ argsL.drop (i + 1)))
        match rowsOf a with
        | some rows => do
          let rows2 ← rows.mapM fun r => r.mapM fun x => pyMul E rest x
          pure (.expr (.str "matrix") (VL (rows2.map fun r => .list (VL r))))
        | none => throw (.typeError "matrix rows are not lists")
  | _ => throw .inapplicable

/-- The first pair of positions `i < j` whose arguments both have head
`"matrix"`, in the scan order of `rule_matrix_addition`. -/
def findMatrixPair (args : List Val) : Option (Nat × Nat) :=
  let idx := List.range args.length
  idx.findSome? fun i =>
    if isMatrixHead (args.getD i (iV 0)) then
      (idx.findSome? fun j =>
        if i < j ∧ isMatrixHead (args.getD j (iV 0)) then some (i, j) else none)
    else none

/-- `rule_matrix_addition` from `matrix.py`: add the first pair of matrix
summands entrywise, keeping the remaining summands. -/
def ruleMatrixAddition : RuleFn := fun E e => do
  match e with
  | .expr _ args =>
    let argsL := args.toList
    match findMatrixPair argsL with
    | none => throw .inapplicable
    | some (i, j) => do
      let ai ← liftE (atE argsL i)
      let aj ← liftE (atE argsL j)
      match rowsOf ai, rowsOf aj with
      | some ri, some rj => do
        if ri.length ≠ rj.length then
          throw (.valueError "The added matrices have different numbers of rows.")
        else if (ri.headD []).length ≠ (rj.headD []).length then
          throw (.valueError "The added matrices have different numbers of columns.")
        else do
          let rows2 ← (ri.zip rj).mapM fun rr =>
            (rr.1.zip rr.2).mapM fun cc => pyAdd E cc.1 cc.2
          let a2 := Val.expr (.str "matrix") (VL (rows2.map fun r => .list (VL r)))
          pure (mkE "Plus"
            (argsL.take i ++ [a2] ++ ((argsL.drop (i + 1)).take (j - i - 1)) ++ argsL.drop (j + 1)))
      | _, _ => throw (.typeError "matrix rows are not lists")
  | _ => throw .inapplicable

/-- `reduce_matmul` from `matrix.py`: true matrix product (`MatTimes`),
with inner-dimension checking; entries are built through 1-based `Part`
accesses. -/
def ruleReduceMatmul : RuleFn := fun E e => do
  match e with
  | .expr _ (.cons A (.cons B .nil)) =>
    if peq (headOf B) (.str "list") then
      throw (.valueError "Expecting a matrix for the second argument, not a list")
    else if ¬ isMatrixHead A ∨ ¬ isMatrixHead B then throw .inapplicable
    else
      match rowsOf A, rowsOf B with
      | some ra, some rb => do
        let m := ra.length
        let n := (rb.headD []).length
        let p := (ra.headD []).length
        if p ≠ rb.length then
          throw (.valueError
            "Number of columns of first argument does not equal number of rows of second argument")
        else do
          let rows2 ← (List.range m).mapM fun i =>
            (List.range n).mapM fun j =>
              (List.range p).foldlM (fun x k => do
                let a ← pyGetItem E A [iV (i + 1), iV (k + 1)]
                let b ← pyGetItem E B [iV (k + 1), iV (j + 1)]
                let t ← pyMul E a b
                pyAdd E x t) (iV 0)
          liftE (mkMatrix rows2)
      | _, _ => throw (.typeError "matrix rows are not lists")
  | _ => throw .inapplicable

/-- `reduce_linear_comb` from `matrix.py`: a Python list paired with a
column vector contracts to the linear combination of the list's entries. -/
def ruleReduceLinearComb : RuleFn := fun E e => do
  match e with
  | .expr _ (.cons lst (.cons c .nil)) =>
    match lst with
    | .list xs =>
      if ¬ isMatrixHead c then throw .inapplicable
      else
        match rowsOf c with
        | some rc => do
          let r0 ← liftE (atE rc 0)
          if r0.length ≠ 1 then throw .inapplicable
          else if xs.length ≠ rc.length then
            throw (.valueError "Expecting the list to have the same number of entries as the vector.")
          else do
            let x0 ← liftE (atE xs.toList 0)
            let c1 ← pyGetItem E c [iV 1]
            let res ← pyMul E c1 x0
            (List.range (xs.length - 1)).foldlM (fun res i => do
              let xi ← liftE (atE xs.toList (i + 1))
              let ci ← pyGetItem E c [iV ((i : Int) + 2)]
              let t ← pyMul E ci xi
              pyAdd E res t) res
        | none => throw (.typeError "matrix rows are not lists")
    | _ => throw .inapplicable
  | _ => throw .inapplicable

/-- `rule_block_matrix_build` from `matrix.py`: once every block of a
`blockmatrix` is a concrete matrix, validate the per-row and per-column
dimensions and flatten into a single matrix. -/
def ruleBlockMatrix : RuleFn := fun _ e => do
  match e with
  | .expr _ args => do
    let rows ← args.toList.mapM fun a =>
      match a with
      | .list r => pure r.toList
      | .tup r => pure r.toList
      | _ => (throw (.typeError "blockmatrix rows are not iterable") : M (List Val))
    if ¬ (rows.all fun row => row.all isMatrixHead) then throw .inapplicable
    else do
      let blocks ← rows.mapM fun row =>
        row.mapM fun b =>
          match rowsOf b with
          | some rb => (pure rb : M (List (List Val)))
          | none => throw (.typeError "matrix rows are not lists")
      -- row-wise consistency of the number of rows
      let _ ← blocks.mapM fun brow => do
        let b0 ← liftE (atE brow 0)
        if brow.all fun b => b.length = b0.length then pure ()
        else throw (.valueError "Not all matrices in a row of block matrix have same number of rows")
      -- column-wise consistency of the number of columns
      let brow0 ← liftE (atE blocks 0)
      let _ ← (List.range brow0.length).mapM fun j => do
        let top ← liftE (atE brow0 j)
        let n := (top.headD []).length
        let _ ← blocks.mapM fun brow => do
          let bj ← liftE (atE brow j)
          if (bj.headD []).length = n then pure ()
          else
            throw (.valueError "Not all matrices in a column of block matrix have same number of columns")
        pure ()
      -- assemble row-by-row
      let A := blocks.foldl (fun acc brow =>
        let h := (brow.headD []).length
        acc ++ (List.range h).map fun i =>
          brow.foldl (fun r b => r ++ b.getD i []) []) []
      liftE (mkMatrix A)
  | _ => throw .inapplicable

/-- The `minors` downvalue from `matrix.py`: the matrix of same-size
cofactor determinants. -/
def ruleMinors : RuleFn := fun E e => do
  match e with
  | .expr _ (.cons m .nil) =>
    if ¬ isMatrixHead m then throw .inapplicable
    else
      match rowsOf m with
      | some rows => do
        let r0 ← liftE (atE rows 0)
        if rows.length ≠ r0.length then throw (.valueError "minors expecting square matrix")
        else do
          let n := rows.length
          let rows2 ← (List.range n).mapM fun i =>
            (List.range n).mapM fun j => do
              let sub := (rows.eraseIdx i).map fun r => r.eraseIdx j
              let subM ← liftE (mkMatrix sub)
              E (mkE "det" [subM])
          liftE (mkMatrix rows2)
      | none => throw (.typeError "matrix rows are not lists")
  | _ => throw .inapplicable

/-- The `adj` downvalue from `matrix.py`: the adjugate (transposed
cofactor) matrix, with the dedicated 1×1 case. -/
def ruleAdj : RuleFn := fun E e => do
  match e with
  | .expr _ (.cons m .nil) =>
    if ¬ isMatrixHead m then throw .inapplicable
    else
      match rowsOf m with
      | some rows => do
        let r0 ← liftE (atE rows 0)
        if rows.length ≠ r0.length then throw (.valueError "expecting square matrix")
        else if rows.length = 1 then liftE (mkMatrix [[iV 1]])
        else do
          let n := rows.length
          let rows2 ← (List.range n).mapM fun i =>
            (List.range n).mapM fun j => do
              let sub := (rows.eraseIdx j).map fun r => r.eraseIdx i
              let subM ← liftE (mkMatrix sub)
              let d ← E (mkE "det" [subM])
              pyMul E (iV ((-1) ^ (i + j))) d
          liftE (mkMatrix rows2)
      | none => throw (.typeError "matrix rows are not lists")
  | _ => throw .inapplicable

/-- The square-and-multiply loop of `reduce_matrix_inverse`
(`while i <= npos`), fuel-structural. -/
def matPowLoop (E : Ev) : Nat → Nat → Nat → Val → Val → M Val
  | 0, _, _, _, _ => noFuel
  | fuel+1, i, npos, P, B =>
    if i ≤ npos then do
      let P2 ← if i &&& npos ≠ 0 then E (mkE "MatTimes" [P, B]) else pure P
      let B2 ← E (mkE "MatTimes" [B, B])
      matPowLoop E fuel (i <<< 1) npos P2 B2
    else pure P

/-- `reduce_matrix_inverse` from `matrix.py`: integer matrix powers by
binary exponentiation; a negative power inverts via `adjugate /
determinant`, raising on non-square or singular input. -/
def ruleMatrixInverse : RuleFn := fun E e => do
  match e with
  | .expr _ (.cons A (.cons nv .nil)) =>
    match nv with
    | .num (.int n) =>
      if ¬ isMatrixHead A then throw .inapplicable
      else
        match rowsOf A with
        | some rows => do
          let r0len := (rows.headD []).length
          if rows.length ≠ r0len then
            if n < 0 then throw (.valueError "Taking the inverse of a non-square matrix")
            else throw (.valueError "Taking the power of a non-square matrix")
          else do
            let nabs ← E (mkE "abs" [nv])
            match nabs with
            | .num (.int npos0) => do
              let npos := npos0.toNat
              let Pinit ← liftE (identityMatrix rows.length)
              let P ← matPowLoop E (npos + 2) 1 npos Pinit A
              if 0 ≤ n then pure P
              else do
                let d ← E (mkE "det" [P])
                if peq d (iV 0) then throw (.valueError "Taking inverse of singular matrix")
                else do
                  let a ← E (mkE "adj" [P])
                  match rowsOf a with
                  | some ra => do
                    let rows2 ← ra.mapM fun r => r.mapM fun v => fracF E v d
                    liftE (mkMatrix rows2)
                  | none => throw (.typeError "matrix rows are not lists")
            | _ => throw (.typeError "abs of int did not give an int")
        | none => throw (.typeError "matrix rows are not lists")
    | _ => throw .inapplicable
  | _ => throw .inapplicable

/-! ## Row reduction (`row_reduce` in `matrix.py`)

The Gaussian elimination of the source, on engine values: partial pivoting
restricted to nonzero rows, scaling of each pivot row to a leading 1,
elimination below, and (for RREF) elimination above.  The step log
(`steps_out`) is TeX-only and is not modelled; the claims call
`row_reduce` with the default `steps_out=None`, for which the source skips
every logging statement. -/

/-- Whether row `i` of the working matrix is all zero (`is_zero`). -/
def isZeroRow (mat : List (List Val)) (i : Nat) : Bool :=
  (mat.getD i []).all fun v => peq v (iV 0)

/-- Swap rows `i` and `j` of the working matrix. -/
def swapRows (mat : List (List Val)) (i j : Nat) : List (List Val) :=
  let ri := mat.getD i []
  let rj := mat.getD j []
  mat.mapIdx fun k r => if k = i then rj else if k = j then ri else r

/-- `scale(i, c)`: multiply every entry of row `i` by `c` on the right
(`mat[i][k] *= c`). -/
def scaleRow (E : Ev) (mat : List (List Val)) (i : Nat) (c : Val) : M (List (List Val)) := do
  let row2 ← (mat.getD i []).mapM fun x => pyMul E x c
  pure (mat.mapIdx fun k r => if k = i then row2 else r)

/-- `replace(i, j, c)`: add `c` times row `j` to row `i`
(`mat[i][k] += c * mat[j][k]`). -/
def replaceRow (E : Ev) (mat : List (List Val)) (i j : Nat) (c : Val) : M (List (List Val)) := do
  let row2 ← ((mat.getD i []).zip (mat.getD j [])).mapM fun xy => do
    let t ← pyMul E c xy.2
    pyAdd E xy.1 t
  pure (mat.mapIdx fun k r => if k = i then row2 else r)

/-- The initial bottom-up scan for the last nonzero row (`last_nz`),
`-1` when every row is zero. -/
def initLastNz (mat : List (List Val)) : Int :=
  match (List.range mat.length).reverse.find? (fun i => ¬ isZeroRow mat i) with
  | some i => (i : Int)
  | none => -1

/-- The working state of the main `row_reduce` loop. -/
structure RRState where
  mat : List (List Val)
  i : Nat
  j : Nat
  lastNz : Int

/-- The pivot-processing part of one `row_reduce` iteration: search below
for a nonzero pivot and swap it up, skip the column if none, otherwise
scale to a leading 1 and eliminate below. -/
def rrPivotStep (E : Ev) (st : RRState) : M RRState := do
  let st ←
    if peq (getEnt st.mat st.i st.j) (iV 0) then
      match ((List.range' (st.i + 1) ((st.lastNz + 1).toNat - (st.i + 1))).find?
          fun k => ¬ peq (getEnt st.mat k st.j) (iV 0)) with
      | some k => pure { st with mat := swapRows st.mat st.i k }
      | none => pure st
    else pure st
  if peq (getEnt st.mat st.i st.j) (iV 0) then
    pure { st with j := st.j + 1 }
  else do
    let mat ←
      if ¬ peq (getEnt st.mat st.i st.j) (iV 1) then do
        let c ← fracF E (iV 1) (getEnt st.mat st.i st.j)
        scaleRow E st.mat st.i c
      else pure st.mat
    let mat ← (List.range' (st.i + 1) ((st.lastNz + 1).toNat - (st.i + 1))).foldlM
      (fun mat k =>
        if ¬ peq (getEnt mat k st.j) (iV 0) then do
          let c ← pyNeg E (getEnt mat k st.j)
          replaceRow E mat k st.i c
        else pure mat) mat
    pure { mat := mat, i := st.i + 1, j := st.j + 1, lastNz := st.lastNz }

/-- The main `while i < rows and j < to_col` loop of `row_reduce`,
fuel-structural (each iteration advances `j` or breaks). -/
def rrLoop (E : Ev) (toCol : Nat) : Nat → RRState → M RRState
  | 0, _ => noFuel
  | fuel+1, st =>
    if st.i < st.mat.length ∧ st.j < toCol then
      if isZeroRow st.mat st.i then
        if (st.i : Int) ≥ st.lastNz then pure st
        else do
          let st2 : RRState :=
            { st with mat := swapRows st.mat st.i st.lastNz.toNat, lastNz := st.lastNz - 1 }
          let st3 ← rrPivotStep E st2
          rrLoop E toCol fuel st3
      else do
        let st3 ← rrPivotStep E st
        rrLoop E toCol fuel st3
    else pure st

/-- The reduced-row-echelon pass of `row_reduce` (`rref=True`): for each
row from `last_nz` upward, clear the column of its leading nonzero
entry. -/
def rrefPhase (E : Ev) (toCol : Nat) (st : RRState) : M (List (List Val)) := do
  ((List.range (st.lastNz + 1).toNat).reverse).foldlM (fun mat i => do
    match (List.range toCol).find? (fun j => ¬ peq (getEnt mat i j) (iV 0)) with
    | none => pure mat
    | some j =>
      ((List.range i).reverse).foldlM (fun mat k =>
        if ¬ peq (getEnt mat k j) (iV 0) then do
          let c ← pyNeg E (getEnt mat k j)
          replaceRow E mat k i c
        else pure mat) mat) st.mat

/-- `row_reduce` from `matrix.py`, with the defaults `steps_out=None` and
`to_col=None`. -/
def rowReduceV (E : Ev) (e : Val) (rref : Bool) : M Val := do
  if ¬ isMatrixHead e then throw (.valueError "expecting matrix")
  else
    match rowsOf e with
    | some mat => do
      let cols := (mat.headD []).length
      let toCol := cols
      let st ← rrLoop E toCol (toCol + 1) ⟨mat, 0, 0, initLastNz mat⟩
      let mat2 ← if rref then rrefPhase E toCol st else pure st.mat
      liftE (mkMatrix mat2)
    | none => throw (.typeError "matrix rows are not lists")

/-- The `rank` downvalue from `matrix.py`: the number of nonzero rows of
the row-echelon form. -/
def ruleRank : RuleFn := fun E e => do
  match e with
  | .expr _ (.cons m .nil) =>
    if ¬ isMatrixHead m then throw .inapplicable
    else do
      let r ← rowReduceV E m false
      match rowsOf r with
      | some rows =>
        pure (iV ((rows.countP fun row => ¬ row.all fun v => peq v (iV 0)) : Int))
      | none => throw (.assertion "row_reduce did not return a matrix")
  | _ => throw .inapplicable

/-- The `nullity` downvalue from `matrix.py`: `ncols - rank`. -/
def ruleNullity : RuleFn := fun E e => do
  match e with
  | .expr _ (.cons m .nil) =>
    if ¬ isMatrixHead m then throw .inapplicable
    else
      match rowsOf m with
      | some rows => do
        let r ← E (mkE "rank" [m])
        match r with
        | .num (.int k) => pure (iV ((rows.headD []).length - k))
        | _ => throw (.typeError "rank did not return an int")
      | none => throw (.typeError "matrix rows are not lists")
  | _ => throw .inapplicable

/-- The `norm` downvalue from `matrix.py`: the square root of the sum of
squared absolute values of the entries (`abs` is the engine's `abs`
downvalue, so a symbolic entry leaves a symbolic `abs` node behind). -/
def ruleNorm : RuleFn := fun E e => do
  match e with
  | .expr _ (.cons m .nil) =>
    if ¬ isMatrixHead m then throw .inapplicable
    else
      match rowsOf m with
      | some rows => do
        let s ← rows.foldlM (fun s r =>
          r.foldlM (fun s v => do
            let a ← E (mkE "abs" [v])
            let p ← pyPowOp E a (iV 2)
            pyAdd E s p) s) (iV 0)
        E (mkE "Pow" [s, qV (1 / 2)])
      | none => throw (.typeError "matrix rows are not lists")
  | _ => throw .inapplicable

/-- `matrix_with_cols` from `matrix.py` (equivalently
`block_matrix([cols...])`): one block row whose blocks are the given
columns. -/
def mwCols (E : Ev) (cols : List Val) : M Val := do
  if cols.length = 0 then throw (.valueError "Block matrices must have at least one column.")
  else E (.expr (.str "blockmatrix") (VL [.tup (VL cols)]))

/-- The `normalize` downvalue from `matrix.py`: divide each column by its
norm and reassemble. -/
def ruleNormalize : RuleFn := fun E e => do
  match e with
  | .expr _ (.cons m .nil) =>
    if ¬ isMatrixHead m then throw .inapplicable
    else
      match rowsOf m with
      | some rows => do
        let colVs ← (colsOf rows).mapM fun c => liftE (mkVector c)
        let cols2 ← colVs.mapM fun c => do
          let n ← E (mkE "norm" [c])
          let p ← pyPowOp E n (iV (-1))
          pyMul E p c
        mwCols E cols2
      | none => throw (.typeError "matrix rows are not lists")
  | _ => throw .inapplicable

/-! ## Symbolic differentiation (`deriv.py`) -/

/-- Python 2-sequence unpacking (`for v, n in spec`), which raises on a
non-sequence or wrong length. -/
def unpack2 (a : Val) : Except PyErr (Val × Val) :=
  match a with
  | .list (.cons v (.cons n .nil)) => .ok (v, n)
  | .tup (.cons v (.cons n .nil)) => .ok (v, n)
  | _ => .error (.valueError "cannot unpack spec entry")

/-- The merging loop of `normalize_deriv_spec`: add the order `n` to the
first entry for the same variable, else append. -/
def mergeSpecEntry (E : Ev) (v n : Val) : List (Val × Val) → M (List (Val × Val))
  | [] => pure [(v, n)]
  | (v2, n2) :: rest =>
    if peq v v2 then do
      let s ← pyAdd E n n2
      pure ((v, s) :: rest)
    else do
      let rest2 ← mergeSpecEntry E v n rest
      pure ((v2, n2) :: rest2)

/-- `normalize_deriv_spec` from `deriv.py`: combine repeated variables
without discarding zero-order entries; reject fractional or negative
literal orders. -/
def normalizeDerivSpec (E : Ev) (spec : Val) : M Val := do
  match spec with
  | .list entries => do
    let pairs ← entries.toList.foldlM (fun (acc : List (Val × Val)) x => do
      let (v, n) ← liftE (unpack2 x)
      if ¬ peq (headOf v) (.str "var") then throw (.assertion "expecting var in deriv spec")
      else do
        if peq (headOf n) (.str "number") then
          match n with
          | .num (.int k) =>
            if k < 0 then throw (.valueError "The derivative spec is negative.")
            else mergeSpecEntry E v n acc
          | _ => throw (.valueError "The derivative spec is fractional.")
        else mergeSpecEntry E v n acc) []
    pure (.list (VL (pairs.map fun vn => .list (VL [vn.1, vn.2]))))
  | _ => throw (.typeError "deriv spec is not a list")

/-- `split_spec` from `deriv.py`, scanning the spec from the end for an
integer positive order, decrementing it (leaving a tuple entry) and
returning the chosen variable. -/
def splitSpecAux : List Val → Except PyErr (List Val × Option Val)
  | [] => .ok ([], none)
  | x :: rest => do
    let (v, n) ← unpack2 x
    match n with
    | .num (.int k) =>
      if 0 < k then .ok ((.tup (VL [v, iV (k - 1)])) :: rest, some v)
      else do
        let (rest2, found) ← splitSpecAux rest
        .ok (x :: rest2, found)
    | _ => do
      let (rest2, found) ← splitSpecAux rest
      .ok (x :: rest2, found)

/-- `split_spec` on a list of spec entries. -/
def splitSpec (spec : List Val) : Except PyErr (List Val × Option Val) := do
  let (rev2, found) ← splitSpecAux spec.reverse
  .ok (rev2.reverse, found)

/-- `spec_for_var` from `deriv.py`: the requested order for a variable,
zeroing its entry (as a tuple) when present. -/
def specForVarAux : List Val → Val → Except PyErr (List Val × Val × Bool)
  | [], _ => .ok ([], iV 0, false)
  | x :: rest, var => do
    let (v, n) ← unpack2 x
    if peq v var then .ok ((.tup (VL [v, iV 0])) :: rest, n, true)
    else do
      let (rest2, n2, f) ← specForVarAux rest var
      .ok (x :: rest2, n2, f)

/-- `zeroed_spec` from `deriv.py`: the spec with every order zeroed (a
list of tuples). -/
def zeroedSpec (spec : List Val) : Except PyErr (List Val) :=
  spec.mapM fun x => (unpack2 x).map fun vn => .tup (VL [vn.1, iV 0])

/-- The elements of a Python list value. -/
def toListOf : Val → Option (List Val)
  | .list l => some l.toList
  | .tup l => some l.toList
  | _ => none

/-- The `fn_derivs` table branch of `rule_deriv_basic`: for a head/arity
pair in the derivative table, apply the chain rule with the table's
Jacobian row.  The table's `("Pow", 2)` entry is embedded exactly as
written in the source: `[b * pow(a, b - 1), pow(a, b * ln(a))]`. -/
def fnDerivsCase (E : Ev) (e constants : Val) (entries : List Val) : M Val := do
  let de? : Option (M (List Val)) :=
    match e with
    | .expr h args =>
      if peq h (.str "Pow") ∧ args.length = 2 then
        match args with
        | .cons a (.cons b .nil) => some (do
            let bm1 ← pySub E b (iV 1)
            let p1 ← pyPowOp E a bm1
            let d1 ← pyMul E b p1
            let la ← E (mkE "ln" [a])
            let bla ← pyMul E b la
            let d2 ← pyPowOp E a bla
            pure [d1, d2])
        | _ => none
      else if peq h (.str "ln") ∧ args.length = 1 then
        match args with
        | .cons a .nil => some (do
            let d ← fracF E (iV 1) a
            pure [d])
        | _ => none
      else if peq h (.str "cos") ∧ args.length = 1 then
        match args with
        | .cons a .nil => some (do
            let d ← E (mkE "sin" [a])
            pure [d])
        | _ => none
      else if peq h (.str "sin") ∧ args.length = 1 then
        match args with
        | .cons a .nil => some (do
            let c ← E (mkE "cos" [a])
            let d ← pyNeg E c
            pure [d])
        | _ => none
      else none
    | _ => none
  match de? with
  | none => throw .inapplicable
  | some deM => do
    let (specS, v?) ← liftE (splitSpec entries)
    match v? with
    | none => throw .inapplicable
    | some v => do
      let de ← deM
      let z ← liftE (zeroedSpec entries)
      let zspec := Val.list (VL (z ++ [.tup (VL [v, iV 1])]))
      let eargsL := match e with | .expr _ args => args.toList | _ => []
      let ds := eargsL.map fun a => mkE "Deriv" [a, zspec, constants]
      let deriv ← (de.zip ds).foldlM (fun acc ab => do
        let t ← pyMul E ab.1 ab.2
        pyAdd E acc t) (iV 0)
      pure (mkE "Deriv" [deriv, .list (VL specS), constants])

/-- `rule_deriv_basic` from `deriv.py`: the single `Deriv` downvalue,
implementing spec normalization, linearity, the generalized product rule,
and the `(head, arity)`-keyed derivative table `fn_derivs`. -/
def ruleDerivBasic : RuleFn := fun E e0 => do
  match e0 with
  | .expr _ (.cons e (.cons spec (.cons constants .nil))) => do
    let specN ← normalizeDerivSpec E spec
    if ¬ peq specN spec then pure (mkE "Deriv" [e, specN, constants])
    else do
      let entries := match specN with | .list l => l.toList | _ => []
      let pairs ← entries.mapM fun x => liftE (unpack2 x)
      let total ← pairs.foldlM (fun acc vn => pyAdd E acc vn.2) (iV 0)
      if peq total (iV 0) then pure e
      else do
        let isConstPart ←
          if peq (headOf e) (.str "Part") then
            match e with
            | .expr _ (.cons p0 _) => pure (peq (headOf p0) (.str "const"))
            | _ => (throw (.exception "IndexError") : M Bool)
          else pure false
        if peq (headOf e) (.str "number") ∨ peq (headOf e) (.str "const") ∨ isConstPart then do
          let (_, v?) ← liftE (splitSpec entries)
          match v? with
          | none => throw .inapplicable
          | some _ => pure (iV 0)
        else if peq (headOf e) (.str "var") then do
          match toListOf constants with
          | none => throw (.typeError "constants is not a list")
          | some cs =>
            if cs.any (fun c => peq e c) then pure (iV 0)
            else do
              let (specZ, n, present) ← liftE (specForVarAux entries e)
              match n with
              | .num (.int k) =>
                if k = 0 ∧ present then pure (iV 0)
                else if 1 < k then pure (iV 0)
                else if k = 1 then pure (mkE "Deriv" [iV 1, .list (VL specZ), constants])
                else throw .inapplicable
              | _ => throw .inapplicable
        else if peq (headOf e) (.str "Deriv") then do
          match e with
          | .expr _ (.cons e1 (.cons spec1 (.cons c1 _))) =>
            if peq c1 constants then
              match spec1 with
              | .list l1 => pure (mkE "Deriv" [e1, .list (VL (entries ++ l1.toList)), constants])
              | _ => throw (.typeError "cannot concatenate spec")
            else throw .inapplicable
          | _ => throw (.exception "IndexError")
        else if peq (headOf e) (.str "Plus") then
          match e with
          | .expr _ eargs =>
            pure (.expr (.str "Plus")
              (VL (eargs.toList.map fun x => mkE "Deriv" [x, specN, constants])))
          | _ => throw .inapplicable
        else if peq (headOf e) (.str "Times") then do
          let (specS, v?) ← liftE (splitSpec entries)
          match v? with
          | none => throw .inapplicable
          | some v => do
            match e with
            | .expr _ eargs => do
              let z ← liftE (zeroedSpec entries)
              let zspec := Val.list (VL (z ++ [.tup (VL [v, iV 1])]))
              let eargsL := eargs.toList
              let deriv ← (List.range eargsL.length).foldlM (fun acc i => do
                let t := Val.expr (.str "Times")
                  (VL (eargsL.take i ++
                    [mkE "Deriv" [eargsL.getD i (iV 0), zspec, constants]] ++
                    eargsL.drop (i + 1)))
                pyAdd E acc t) (iV 0)
              pure (mkE "Deriv" [deriv, .list (VL specS), constants])
            | _ => throw .inapplicable
        else if peq (headOf e) (.str "Part") then
          match e with
          | .expr _ (.cons p0 prest) =>
            pure (.expr (.str "Part")
              (.cons (mkE "Deriv" [p0, specN, constants]) prest))
          | _ => throw (.exception "IndexError")
        else fnDerivsCase E e constants entries
  | _ => throw .inapplicable

/-! ## The evaluator (`evaluate` in `core.py`) -/

/-- The registered downvalues for each head, in *registration* order
(module import order is `core`, `arith`, `manipulate`, `tex_form`,
`matrix`, `deriv`; the evaluator tries them in reverse). -/
def downvalues : String → List RuleFn
  | "Plus" => [rulePlusCollect, ruleMatrixAddition]
  | "Times" => [ruleTimesCollect, ruleTimesFracCollect, ruleScalarMultiplication]
  | "Pow" => [rulePowConstants, rulePowPow, ruleMulPow, ruleIPow, ruleExpLn, ruleMatrixInverse]
  | "ln" => [ruleLn]
  | "sin" => [ruleSin]
  | "cos" => [ruleCos]
  | "abs" => [ruleAbs]
  | "transpose" => [ruleTranspose]
  | "dot" => [ruleDot]
  | "blockmatrix" => [ruleBlockMatrix]
  | "Part" => [rulePartVector, rulePartMatrix]
  | "det" => [ruleDet]
  | "tr" => [ruleTr]
  | "minors" => [ruleMinors]
  | "MatTimes" => [ruleReduceMatmul, ruleReduceLinearComb]
  | "adj" => [ruleAdj]
  | "rank" => [ruleRank]
  | "nullity" => [ruleNullity]
  | "norm" => [ruleNorm]
  | "normalize" => [ruleNormalize]
  | "Deriv" => [ruleDerivBasic]
  | _ => []

/-- The downvalue scan of `evaluate`: try each rule in order; a rule that
raises `Inapplicable` or returns an expression equal to its input is
skipped; the first rule that returns something different yields `some`
candidate; `none` means no rule fired. -/
def tryRules (E : Ev) : List RuleFn → Val → M (Option Val)
  | [], _ => pure none
  | r :: rs, e =>
    match (r E e).run with
    | none => noFuel
    | some (.error .inapplicable) => tryRules E rs e
    | some (.error err) => throw err
    | some (.ok e2) => if peq e2 e then tryRules E rs e else pure (some e2)

/-- Elementwise evaluation of an argument sequence. -/
def evListAux (E : Ev) : ValList → M ValList
  | .nil => pure .nil
  | .cons x xs => do
    let y ← E x
    let ys ← evListAux E xs
    pure (.cons y ys)

/-- One pass of the body of `evaluate`'s `while True` loop, parameterized
by the evaluator `E` used for recursive evaluation (of the head, the
arguments, and the candidate produced by a fired rule — the last of these
realizes the loop's restart).  Numbers and strings evaluate to themselves;
lists and tuples evaluate elementwise to lists; for a compound node the
head and arguments are evaluated, `Flat` heads are flattened, and the
head's downvalues are tried most-recently-registered first. -/
def evalStep (E : Ev) (e : Val) : M Val :=
  match e with
  | .num _ => pure e
  | .str _ => pure e
  | .list xs => do
    let ys ← evListAux E xs
    pure (.list ys)
  | .tup xs => do
    let ys ← evListAux E xs
    pure (.list ys)
  | .expr h args => do
    let h2 ← E h
    let args2 ← evListAux E args
    if ¬ hashable h2 then throw (.typeError "unhashable head")
    else do
      let args3 := if isFlat h2 then flattenArgs h2 args2 else args2
      let e1 := Val.expr h2 args3
      match h2 with
      | .str hs => do
        match ← tryRules E (downvalues hs).reverse e1 with
        | some e2 => E e2
        | none => pure e1
      | _ => pure e1

/-- `evaluate` from `core.py`, indexed by fuel: each recursive evaluation
(including each restart of the `while True` loop after a rewrite)
consumes one unit. -/
def ev : Nat → Val → M Val
  | 0, _ => noFuel
  | fuel+1, e => evalStep (ev fuel) e

/-! ## Free functions used by the claims -/

/-- `D` from `deriv.py`: the derivative-request constructor, which
validates and normalizes the specification entries to `[v, n]` pairs and
evaluates the resulting `Deriv` node. -/
def DF (fuel : Nat) (e : Val) (spec : List Val) (constants : List Val) : M Val := do
  if ¬ (constants.all fun c => peq (headOf c) (.str "var")) then
    throw (.assertion "constants must be vars")
  else do
    let spec2 ← spec.mapM fun s => do
      match s with
      | .expr _ _ =>
        if peq (headOf s) (.str "var") then pure (Val.list (VL [s, iV 1]))
        else liftE (.error (.valueError "unexpected item in spec"))
      | .tup l | .list l =>
        if l.length ≠ 2 then throw (.valueError "tuple in spec should have length 2")
        else
          match l with
          | .cons v (.cons nn .nil) =>
            if ¬ peq (headOf v) (.str "var") then
              throw (.valueError "can only take derivatives with respect to variables")
            else pure (Val.list (VL [v, nn]))
          | _ => throw (.valueError "tuple in spec should have length 2")
      | _ => throw (.valueError "unexpected item in spec")
    ev fuel (mkE "Deriv" [e, .list (VL spec2), .list (VL constants)])

/-! ## Scoped rendering policy (`dynamic.py`, `tex_form.py`, `builder.py`)

`dynamic.py` keeps a global stack of dictionaries (`DYNAMIC_VARIABLES`);
`enter` pushes an empty layer, `leave` pops, `set` writes into the
innermost layer, `get` searches the layers innermost-first and falls back
to a default.  The embedding is polymorphic in the stored value type and
threads the stack explicitly. -/

/-- The dynamic-variable stack: a list of insertion-ordered dictionaries,
the innermost scope last. -/
abbrev Dyn (V : Type) : Type := List (List (String × V))

/-- Python dictionary lookup. -/
def dictGet {V : Type} (d : List (String × V)) (n : String) : Option V :=
  (d.find? fun kv => kv.1 = n).map fun kv => kv.2

/-- Python dictionary assignment (updates in place, preserving insertion
order, or appends). -/
def dictSet {V : Type} (n : String) (v : V) : List (String × V) → List (String × V)
  | [] => [(n, v)]
  | (k, w) :: rest => if k = n then (k, v) :: rest else (k, w) :: dictSet n v rest

/-- `reset()` from `dynamic.py`. -/
def dynReset {V : Type} : Dyn V := [[]]

/-- `enter()` from `dynamic.py`: push a fresh, initially-empty layer. -/
def dynEnter {V : Type} (s : Dyn V) : Dyn V := s ++ [[]]

/-- `leave()` from `dynamic.py`: pop the innermost layer; leaving the top
level is an internal error. -/
def dynLeave {V : Type} (s : Dyn V) : Except PyErr (Dyn V) :=
  if s.length ≤ 1 then .error (.exception "(internal error) Cannot leave top level dynamic scope")
  else .ok s.dropLast

/-- The innermost-first search of `get()` (`for scope in
reversed(DYNAMIC_VARIABLES)`). -/
def dynGetOpt {V : Type} (n : String) : Dyn V → Option V
  | [] => none
  | d :: rest => (dynGetOpt n rest).orElse fun _ => dictGet d n

/-- `get(name, default)` from `dynamic.py`. -/
def dynGet {V : Type} (n : String) (default : V) (s : Dyn V) : V :=
  (dynGetOpt n s).getD default

/-- `set(name, val)` from `dynamic.py`: assign in the innermost layer.
(The empty stack never occurs: `reset` establishes one layer and `leave`
refuses to pop the last one.) -/
def dynSet {V : Type} (n : String) (v : V) : Dyn V → Dyn V
  | [] => []
  | [d] => [dictSet n v d]
  | d :: rest => d :: dynSet n v rest

/-- The hard default of the vector-as-tuple policy
(`DEFAULT_TEX_VECTOR_AS_TUPLE` in `tex_form.py`). -/
def DEFAULT_TEX_VECTOR_AS_TUPLE : Bool := false

/-- `TEX_VECTOR_AS_TUPLE()` from `tex_form.py`: the scoped lookup with its
hard default. -/
def TEX_VECTOR_AS_TUPLE (s : Dyn Bool) : Bool :=
  dynGet "TEX_VECTOR_AS_TUPLE" DEFAULT_TEX_VECTOR_AS_TUPLE s

/-- `tex_vector_as_tuple(state)` from `tex_form.py`: the scoped setter. -/
def tex_vector_as_tuple (state : Bool) (s : Dyn Bool) : Dyn Bool :=
  dynSet "TEX_VECTOR_AS_TUPLE" state s

/-- The control flow of a `begin_quiz()` … `end_quiz()` authoring scope in
`builder.py`: `begin_quiz` ends by calling `pyquiz.dynamic.enter()` and
`end_quiz` ends by calling `pyquiz.dynamic.leave()`; there is **no**
`try`/`finally`, so when the body raises, `leave` is never executed and
the exception propagates with the scope layer still on the global stack
(`uploader.py` only calls `dynamic.reset()` before executing the *next*
quiz file).  A body is a state transformer that may also report an
exception. -/
def scopedRun {V : Type} (body : Dyn V → Dyn V × Option PyErr) (s : Dyn V) :
    Dyn V × Option PyErr :=
  let (s2, err) := body (dynEnter s)
  match err with
  | none =>
    match dynLeave s2 with
    | .ok s3 => (s3, none)
    | .error e => (s2, some e)
  | some e => (s2, some e)

/-- Apply a list of `set` operations (the policy writes performed inside a
scope). -/
def applySets {V : Type} (sets : List (String × V)) (s : Dyn V) : Dyn V :=
  sets.foldl (fun s nv => dynSet nv.1 nv.2 s) s

example : (ev 10 (mkE "Plus" [iV 2, iV 3])).run = some (.ok (iV 5)) := rfl

example : (ev 20 (mkE "Pow" [iV 4, qV (1 / 2)])).run = some (.ok (iV 2)) := by
  with_unfolding_all rfl

example : (ev 20 (mkE "Pow" [iV 8, qV (1 / 3)])).run = some (.ok (iV 2)) := by
  with_unfolding_all rfl

/-! ## Evaluator computation lemmas -/

theorem ValList.toList_ofList (l : List Val) : (ValList.ofList l).toList = l := by
  induction l with
  | nil => rfl
  | cons x xs ih => simp [ValList.ofList, ValList.toList, ih]

/-- A matrix literal whose entries are concrete Python numbers. -/
def numMat (rows : List (List NumV)) : Val :=
  .expr (.str "matrix") (VL (rows.map fun r => .list (VL (r.map Val.num))))

theorem ev_num (f : Nat) (hf : 1 ≤ f) (n : NumV) : ev f (.num n) = pure (.num n) := by
  obtain ⟨g, rfl⟩ : ∃ g, f = g + 1 := ⟨f - 1, by omega⟩
  rfl

theorem ev_str (f : Nat) (hf : 1 ≤ f) (s : String) : ev f (.str s) = pure (.str s) := by
  obtain ⟨g, rfl⟩ : ∃ g, f = g + 1 := ⟨f - 1, by omega⟩
  rfl

theorem evListAux_pure (E : Ev) (xs : List Val) (h : ∀ x ∈ xs, E x = pure x) :
    evListAux E (VL xs) = pure (VL xs) := by
  induction xs with
  | nil => rfl
  | cons x xs ih =>
    have hx : E x = pure x := h x (by simp)
    have ihh := ih fun y hy => h y (by simp [hy])
    simp [VL] at ihh
    simp [VL, ValList.ofList, evListAux, hx, ihh]

theorem ev_numRow (f : Nat) (hf : 2 ≤ f) (r : List NumV) :
    ev f (.list (VL (r.map Val.num))) = pure (.list (VL (r.map Val.num))) := by
  obtain ⟨g, rfl⟩ : ∃ g, f = g + 2 := ⟨f - 2, by omega⟩
  show evalStep (ev (g+1)) _ = _
  have h := evListAux_pure (ev (g+1)) (r.map Val.num) (by
    intro x hx
    obtain ⟨n, _, rfl⟩ := List.mem_map.mp hx
    exact ev_num (g+1) (by omega) n)
  simp [evalStep, h]

theorem ev_numMat (f : Nat) (hf : 3 ≤ f) (rows : List (List NumV)) :
    ev f (numMat rows) = pure (numMat rows) := by
  obtain ⟨g, rfl⟩ : ∃ g, f = g + 3 := ⟨f - 3, by omega⟩
  show evalStep (ev (g+2)) _ = _
  have hargs := evListAux_pure (ev (g+2))
    (rows.map fun r => Val.list (VL (r.map Val.num))) (by
      intro x hx
      obtain ⟨r, _, rfl⟩ := List.mem_map.mp hx
      exact ev_numRow (g+2) (by omega) r)
  have hh := ev_str (g+2) (by omega) "matrix"
  simp [evalStep, numMat, hh, hargs, hashable, isFlat, downvalues, tryRules]

theorem rowsOf_numMat (rows : List (List NumV)) :
    rowsOf (numMat rows) = some (rows.map fun r => r.map Val.num) := by
  have key : ∀ (rs : List (List NumV)) (acc : List (List Val)),
      List.mapM.loop (fun a => match a with | Val.list r => some r.toList | _ => none)
        (rs.map fun r => Val.list (VL (r.map Val.num))) acc
        = some (acc.reverse ++ rs.map fun r => r.map Val.num) := by
    intro rs
    induction rs with
    | nil => intro acc; simp [List.mapM.loop]
    | cons r rest ih =>
      intro acc
      simp only [VL] at ih ⊢
      simp [List.mapM.loop, ValList.toList_ofList, ih]
  have key0 := key rows []
  simp only [VL] at key0
  simp [rowsOf, numMat, peq, VL, ValList.toList_ofList, key0]

theorem isMatrixHead_numMat (rows : List (List NumV)) :
    isMatrixHead (numMat rows) = true := by
  simp [isMatrixHead, numMat, headOf, peq]

theorem tryRules_inapplicable (E : Ev) (r : RuleFn) (rs : List RuleFn) (e : Val)
    (h : (r E e).run = some (.error .inapplicable)) :
    tryRules E (r :: rs) e = tryRules E rs e := by
  simp [tryRules, h]

theorem tryRules_throw (E : Ev) (r : RuleFn) (rs : List RuleFn) (e : Val) (err : PyErr)
    (h : (r E e).run = some (.error err)) (hne : err ≠ .inapplicable) :
    tryRules E (r :: rs) e = throw err := by
  cases err <;> simp [tryRules, h] at hne ⊢

/-! ## C2: the derivative table's Pow entry -/

/-- **C2.**  The derivative table `fn_derivs` in `deriv.py` maps
`("Pow", 2)` to `[b * pow(a, b - 1), pow(a, b * ln(a))]`.  The second
component of the Jacobian row with respect to `(a, b)` should be
`a^b · ln(a)`, i.e. `pow(a, b) * ln(a)`: the source misplaces the
parenthesis.  Consequently, for a declared-constant symbol `a` and a spec
variable `y`, the derivative request `D(Pow(a, y), y)` evaluates to
`Pow(a, Times(y, ln(a)))` — the expression `a^(y·ln a)` — which is a
different expression tree (and a different function) from the claimed
`a^y·ln(a) = Times(Pow(a, y), ln(a))`. -/
theorem C2_deriv_pow_table_bug :
    (DF 80 (mkE "Pow" [constE "a", varE "y"]) [varE "y"] []).run
      = some (.ok (mkE "Pow" [constE "a",
          mkE "Times" [varE "y", mkE "ln" [constE "a"]]])) ∧
    mkE "Pow" [constE "a", mkE "Times" [varE "y", mkE "ln" [constE "a"]]]
      ≠ mkE "Times" [mkE "Pow" [constE "a", varE "y"], mkE "ln" [constE "a"]] := by
  refine ⟨by with_unfolding_all rfl, by decide⟩

/-! ## C6: indexing errors -/

/-- **C6, counterexample.**  The claim says a `Part` node with the wrong
number of indices is reported immediately as an error.  In the source the
`Part` downvalues are an arity-2 rule (`rule_part_vector`) and an arity-3
rule (`rule_part_matrix`); a `Part` node with a matrix and **three**
indices matches neither arity, every rule raises `Inapplicable`, and
`evaluate` returns the node unreduced — silently, with no error. -/
theorem C6_counterexample :
    (ev 30 (mkE "Part" [mkE "matrix" [.list (VL [iV 1, iV 2]), .list (VL [iV 3, iV 4])],
        iV 1, iV 1, iV 1])).run
      = some (.ok (mkE "Part" [mkE "matrix" [.list (VL [iV 1, iV 2]), .list (VL [iV 3, iV 4])],
        iV 1, iV 1, iV 1])) := by
  with_unfolding_all rfl

/-- **C6 (amended).**  For every concrete numeric matrix (any dimensions)
and integer indices, with enough fuel: (i) a single index on a column
vector that is out of range evaluates to a `ValueError`; (ii) two indices
whose first is out of range evaluate to a `ValueError`; (iii) two indices
whose first is in range and whose second is out of range evaluate to a
`ValueError`; (iv) a single index on a matrix whose rows do not have
exactly one entry evaluates to a `ValueError` (one index on a
multi-column matrix is an error, not a silent default).  Wrong-arity
`Part` nodes (three indices), however, are **not** errors: see
`C6_counterexample`. -/
theorem C6_indexing_errors (rows : List (List NumV)) (k k2 : Int) (f : Nat)
    (hf : 4 ≤ f) (hrows : rows ≠ []) :
    ((rows.headD []).length = 1 → ¬ (1 ≤ k ∧ k ≤ rows.length) →
      (ev f (mkE "Part" [numMat rows, iV k])).run
        = some (.error (.valueError "Index is out of bounds for vector."))) ∧
    (¬ (1 ≤ k ∧ k ≤ rows.length) →
      (ev f (mkE "Part" [numMat rows, iV k, iV k2])).run
        = some (.error (.valueError "First index is out of bounds."))) ∧
    ((1 ≤ k ∧ k ≤ rows.length) → ¬ (1 ≤ k2 ∧ k2 ≤ (rows.headD []).length) →
      (ev f (mkE "Part" [numMat rows, iV k, iV k2])).run
        = some (.error (.valueError "Second index is out of bounds."))) ∧
    ((rows.headD []).length ≠ 1 →
      (ev f (mkE "Part" [numMat rows, iV k])).run
        = some (.error (.valueError "Need two indices to index a matrix, not one."))) := by
  obtain ⟨g, rfl⟩ : ∃ g, f = g + 4 := ⟨f - 4, by omega⟩
  obtain ⟨r0, rest, rfl⟩ : ∃ r0 rest, rows = r0 :: rest :=
    ⟨rows.headD [], rows.tail, by cases rows with
      | nil => exact absurd rfl hrows
      | cons a l => rfl⟩
  have hstr : ev (g+3) (.str "Part") = pure (.str "Part") := ev_str _ (by omega) _
  have hmat : ev (g+3) (numMat (r0 :: rest)) = pure (numMat (r0 :: rest)) :=
    ev_numMat _ (by omega) _
  have hk : ev (g+3) (iV k) = pure (iV k) := ev_num _ (by omega) _
  have hk2 : ev (g+3) (iV k2) = pure (iV k2) := ev_num _ (by omega) _
  have hrows2 := rowsOf_numMat (r0 :: rest)
  refine ⟨?_, ?_, ?_, ?_⟩
  · intro hcol hrange
    replace hcol : r0.length = 1 := by simpa using hcol
    replace hrange : ¬ (1 ≤ k ∧ k ≤ (rest.length + 1 : Int)) := by
      simpa using hrange
    show (evalStep (ev (g+3)) (mkE "Part" [numMat (r0 :: rest), iV k])).run = _
    have hpm : (rulePartMatrix (ev (g+3))
        (Val.expr (.str "Part")
          (.cons (numMat (r0 :: rest)) (.cons (iV k) .nil)))).run
        = some (.error .inapplicable) := by
      simp [rulePartMatrix, mkE, VL, ValList.ofList, ExceptT.run_throw]
    have hpv : (rulePartVector (ev (g+3))
        (Val.expr (.str "Part")
          (.cons (numMat (r0 :: rest)) (.cons (iV k) .nil)))).run
        = some (.error (.valueError "Index is out of bounds for vector.")) := by
      simp [rulePartVector, mkE, VL, ValList.ofList, iV, isMatrixHead_numMat,
        hrows2, atE, liftE, hcol, hrange, ExceptT.run_throw, ExceptT.run_bind]
    simp [evalStep, mkE, VL, ValList.ofList, evListAux, hstr, hmat, hk, hashable,
      isFlat, downvalues, tryRules, hpm, hpv, ExceptT.run_bind, ExceptT.run_throw]
  · intro hrange
    replace hrange : ¬ (1 ≤ k ∧ k ≤ (rest.length + 1 : Int)) := by
      simpa using hrange
    show (evalStep (ev (g+3)) (mkE "Part" [numMat (r0 :: rest), iV k, iV k2])).run = _
    have hpm : (rulePartMatrix (ev (g+3))
        (Val.expr (.str "Part")
          (.cons (numMat (r0 :: rest)) (.cons (iV k) (.cons (iV k2) .nil))))).run
        = some (.error (.valueError "First index is out of bounds.")) := by
      simp [rulePartMatrix, mkE, VL, ValList.ofList, iV, isMatrixHead_numMat,
        hrows2, atE, liftE, hrange, ExceptT.run_throw, ExceptT.run_bind]
    simp [evalStep, mkE, VL, ValList.ofList, evListAux, hstr, hmat, hk, hk2, hashable,
      isFlat, downvalues, tryRules, hpm, ExceptT.run_bind, ExceptT.run_throw]
  · intro hrange hrange2
    replace hrange : 1 ≤ k ∧ k ≤ (rest.length + 1 : Int) := by
      simpa using hrange
    replace hrange2 : ¬ (1 ≤ k2 ∧ k2 ≤ (r0.length : Int)) := by
      simpa using hrange2
    show (evalStep (ev (g+3)) (mkE "Part" [numMat (r0 :: rest), iV k, iV k2])).run = _
    have hpm : (rulePartMatrix (ev (g+3))
        (Val.expr (.str "Part")
          (.cons (numMat (r0 :: rest)) (.cons (iV k) (.cons (iV k2) .nil))))).run
        = some (.error (.valueError "Second index is out of bounds.")) := by
      have hcond : 1 ≤ k2 → ((r0.length : Int) < k2) := by omega
      simp [rulePartMatrix, mkE, VL, ValList.ofList, iV, isMatrixHead_numMat,
        hrows2, atE, liftE, hrange, hrange.1, hrange.2,
        ExceptT.run_throw, ExceptT.run_bind]
      rw [if_pos hcond]
      simp [ExceptT.run_throw]
    simp [evalStep, mkE, VL, ValList.ofList, evListAux, hstr, hmat, hk, hk2, hashable,
      isFlat, downvalues, tryRules, hpm, ExceptT.run_bind, ExceptT.run_throw]
  · intro hcol
    replace hcol : ¬ r0.length = 1 := by simpa using hcol
    show (evalStep (ev (g+3)) (mkE "Part" [numMat (r0 :: rest), iV k])).run = _
    have hpm : (rulePartMatrix (ev (g+3))
        (Val.expr (.str "Part")
          (.cons (numMat (r0 :: rest)) (.cons (iV k) .nil)))).run
        = some (.error .inapplicable) := by
      simp [rulePartMatrix, mkE, VL, ValList.ofList, ExceptT.run_throw]
    have hpv : (rulePartVector (ev (g+3))
        (Val.expr (.str "Part")
          (.cons (numMat (r0 :: rest)) (.cons (iV k) .nil)))).run
        = some (.error (.valueError "Need two indices to index a matrix, not one.")) := by
      simp [rulePartVector, mkE, VL, ValList.ofList, iV, isMatrixHead_numMat,
        hrows2, atE, liftE, hcol, ExceptT.run_throw, ExceptT.run_bind]
    simp [evalStep, mkE, VL, ValList.ofList, evListAux, hstr, hmat, hk, hashable,
      isFlat, downvalues, tryRules, hpm, hpv, ExceptT.run_bind, ExceptT.run_throw]

/-- **C6, witness**: the amended theorem at the concrete column vector
`[[1], [2]]` with first index 3 (out of range for both access forms) and
second index 5. -/
theorem C6_indexing_errors_witness :
    (([[NumV.int 1], [NumV.int 2]].headD []).length = 1 → ¬ ((1:Int) ≤ 3 ∧ (3:Int) ≤ [[NumV.int 1], [NumV.int 2]].length) →
      (ev 4 (mkE "Part" [numMat [[NumV.int 1], [NumV.int 2]], iV 3])).run
        = some (.error (.valueError "Index is out of bounds for vector."))) ∧
    (¬ ((1:Int) ≤ 3 ∧ (3:Int) ≤ [[NumV.int 1], [NumV.int 2]].length) →
      (ev 4 (mkE "Part" [numMat [[NumV.int 1], [NumV.int 2]], iV 3, iV 5])).run
        = some (.error (.valueError "First index is out of bounds."))) ∧
    (((1:Int) ≤ 3 ∧ (3:Int) ≤ [[NumV.int 1], [NumV.int 2]].length) → ¬ ((1:Int) ≤ 5 ∧ (5:Int) ≤ ([[NumV.int 1], [NumV.int 2]].headD []).length) →
      (ev 4 (mkE "Part" [numMat [[NumV.int 1], [NumV.int 2]], iV 3, iV 5])).run
        = some (.error (.valueError "Second index is out of bounds."))) ∧
    (([[NumV.int 1], [NumV.int 2]].headD []).length ≠ 1 →
      (ev 4 (mkE "Part" [numMat [[NumV.int 1], [NumV.int 2]], iV 3])).run
        = some (.error (.valueError "Need two indices to index a matrix, not one."))) :=
  C6_indexing_errors [[NumV.int 1], [NumV.int 2]] 3 5 4 (by omega) (by simp)

/-! ## C4: the `row_reduce` echelon-form invariant (exact ℚ layer)

The claim quantifies over matrices with exact numeric (`int`/`Fraction`)
entries.  On such input every value `row_reduce` manipulates is an exact
rational; Python's numeric type tags never change a value, and the
algorithm branches only on value equalities (`== 0`, `!= 1`), so the
computation factors through the values.  The definitions below are
`row_reduce` from `matrix.py` translated over the common exact value type
`ℚ` (defaults `rref=True`, `steps_out=None`, `to_col=None`); row
assignment `mat[i] = ...` is `List.set`. -/

/-- `find?` over `range`: the found index satisfies the predicate and
everything before it fails it. -/
theorem find?_range_spec (p : Nat → Bool) (n : Nat) :
    (∀ i, (List.range n).find? p = some i →
      i < n ∧ p i = true ∧ ∀ k, k < i → p k = false) ∧
    ((List.range n).find? p = none → ∀ k, k < n → p k = false) := by
  constructor
  · intro i hi
    simp at hi
    exact ⟨hi.2.1, hi.1, hi.2.2⟩
  · intro hn k hk
    rw [List.find?_eq_none] at hn
    simpa using hn k (by simp [hk])

theorem dictGet_dictSet_self {V : Type} (n : String) (v : V) (d : List (String × V)) :
    dictGet (dictSet n v d) n = some v := by
  induction d with
  | nil => simp [dictSet, dictGet, List.find?]
  | cons kv rest ih =>
    obtain ⟨k, w⟩ := kv
    by_cases h : k = n
    · simp [dictSet, h, dictGet, List.find?]
    · simpa [dictSet, h, dictGet, List.find?] using ih

theorem dynGetOpt_concat {V : Type} (n : String) (s : Dyn V) (d : List (String × V)) :
    dynGetOpt n (s ++ [d]) = (dictGet d n).orElse fun _ => dynGetOpt n s := by
  induction s with
  | nil =>
    show (dynGetOpt n []).orElse _ = _
    cases h : dictGet d n <;> simp [dynGetOpt, Option.orElse, h]
  | cons a s ih =>
    show (dynGetOpt n (s ++ [d])).orElse _ = _
    rw [ih]
    cases h : dictGet d n <;> cases h2 : dynGetOpt n s <;>
      simp [dynGetOpt, Option.orElse, h, h2]

theorem dynSet_concat {V : Type} (n : String) (v : V) (s : Dyn V) (d : List (String × V)) :
    dynSet n v (s ++ [d]) = s ++ [dictSet n v d] := by
  induction s with
  | nil => rfl
  | cons a s ih =>
    cases s with
    | nil => rfl
    | cons b t =>
      show a :: dynSet n v ((b :: t) ++ [d]) = _
      rw [ih]
      rfl

theorem applySets_concat {V : Type} (sets : List (String × V)) (s : Dyn V)
    (d : List (String × V)) :
    applySets sets (s ++ [d]) =
      s ++ [sets.foldl (fun d nv => dictSet nv.1 nv.2 d) d] := by
  induction sets generalizing d with
  | nil => rfl
  | cons nv rest ih =>
    show applySets rest (dynSet nv.1 nv.2 (s ++ [d])) = _
    rw [dynSet_concat, ih]
    rfl

theorem dynGetOpt_dynSet_self {V : Type} (n : String) (v : V) (s : Dyn V) (hs : s ≠ []) :
    dynGetOpt n (dynSet n v s) = some v := by
  induction s with
  | nil => exact absurd rfl hs
  | cons d s ih =>
    cases s with
    | nil => simp [dynSet, dynGetOpt, dictGet_dictSet_self, Option.orElse]
    | cons e t =>
      show (dynGetOpt n (dynSet n v (e :: t))).orElse _ = _
      rw [ih (by simp)]
      rfl

/-- **C9, counterexample.**  The spec says every policy lookup reverts to
its pre-scope value "including on an error exit".  In the source,
`begin_quiz`/`end_quiz` in `builder.py` call `dynamic.enter()` /
`dynamic.leave()` with no `try`/`finally`, so a body that raises after
setting `tex_vector_as_tuple(True)` leaves the scope layer (and the
overridden policy value) on the stack: after the error exit,
`TEX_VECTOR_AS_TUPLE()` still reads `true`, not the prior `false`. -/
theorem C9_counterexample :
    TEX_VECTOR_AS_TUPLE dynReset = false ∧
    (scopedRun
        (fun s => (tex_vector_as_tuple true s, some (.exception "error in quiz body")))
        dynReset).2 = some (.exception "error in quiz body") ∧
    TEX_VECTOR_AS_TUPLE
      (scopedRun
        (fun s => (tex_vector_as_tuple true s, some (.exception "error in quiz body")))
        dynReset).1 = true :=
  ⟨rfl, rfl, rfl⟩

/-- **C9 (amended).**  The scoped-policy mechanism of `dynamic.py`, for
every value type, stack, policy name, default and value: (i) lookup is
innermost-first — on a stack with one more layer `d`, `get` returns the
value recorded in `d` when there is one and otherwise defers to the outer
stack; (ii) a name set in no layer falls back to the hard default;
(iii) after `set(name, v)`, `get(name)` returns `v`; (iv) on a **normal**
exit from a scope, the whole stack — hence every policy lookup — reverts
exactly to its value before the scope was entered, whatever `set`
operations the body performed.  (The "including on an error exit" part of
the original claim is refuted by `C9_counterexample`.) -/
theorem C9_scoped_policy {V : Type} (s : Dyn V) (d : List (String × V))
    (name : String) (default v : V) (sets : List (String × V)) (hs : s ≠ []) :
    dynGet name default (s ++ [d]) = (dictGet d name).getD (dynGet name default s) ∧
    (dynGetOpt name s = none → dynGet name default s = default) ∧
    dynGet name default (dynSet name v s) = v ∧
    scopedRun (fun t => (applySets sets t, none)) s = (s, none) := by
  refine ⟨?_, ?_, ?_, ?_⟩
  · unfold dynGet
    rw [dynGetOpt_concat]
    cases dictGet d name <;> simp [Option.orElse]
  · intro h
    simp [dynGet, h]
  · simp [dynGet, dynGetOpt_dynSet_self name v s hs]
  · have h1 : applySets sets (s ++ [[]]) =
        s ++ [sets.foldl (fun d nv => dictSet nv.1 nv.2 d) []] :=
      applySets_concat sets s []
    have hpos := List.length_pos.mpr hs
    have hlen : ¬ (s ++ [sets.foldl (fun d nv => dictSet nv.1 nv.2 d) []]).length ≤ 1 := by
      have h2 : (s ++ [sets.foldl (fun d nv => dictSet nv.1 nv.2 d) []]).length
          = s.length + 1 := by simp
      omega
    have hdl : dynLeave (s ++ [sets.foldl (fun d nv => dictSet nv.1 nv.2 d) []])
        = .ok s := by
      simp [dynLeave, hlen, List.dropLast_concat, hs]
    simp [scopedRun, dynEnter, h1, hdl]

/-- **C9, witness**: the amended theorem at the concrete vector-as-tuple
policy: fresh stack, default `false`, a scope whose body sets the policy
to `true`. -/
theorem C9_scoped_policy_witness :
    dynGet "TEX_VECTOR_AS_TUPLE" false ((dynReset : Dyn Bool) ++ [[("TEX_VECTOR_AS_TUPLE", true)]]) =
      (dictGet [("TEX_VECTOR_AS_TUPLE", true)] "TEX_VECTOR_AS_TUPLE").getD
        (dynGet "TEX_VECTOR_AS_TUPLE" false (dynReset : Dyn Bool)) ∧
    (dynGetOpt "TEX_VECTOR_AS_TUPLE" (dynReset : Dyn Bool) = none →
      dynGet "TEX_VECTOR_AS_TUPLE" false (dynReset : Dyn Bool) = false) ∧
    dynGet "TEX_VECTOR_AS_TUPLE" false
      (dynSet "TEX_VECTOR_AS_TUPLE" true (dynReset : Dyn Bool)) = true ∧
    scopedRun (fun t => (applySets [("TEX_VECTOR_AS_TUPLE", true)] t, none))
      (dynReset : Dyn Bool) = (dynReset, none) :=
  C9_scoped_policy dynReset [("TEX_VECTOR_AS_TUPLE", true)] "TEX_VECTOR_AS_TUPLE"
    false true [("TEX_VECTOR_AS_TUPLE", true)] (by simp [dynReset])

/-! ## C1: idempotence of `evaluate`

The proof has two parts.  First, *fuel monotonicity*: a defined result of
the fuel-indexed evaluator is preserved by any larger fuel.  This requires
every downvalue to be monotone in the evaluator it is handed, proved rule
by rule below over the ordering `mle` ("more defined than").  Second, the
*fixpoint property*: a value returned by `evaluate` evaluates to itself,
proved by induction on the fuel with a hereditary invariant `Inner`
(arguments of a returned node are themselves fixpoints, and arguments of a
`Flat` node contain no nested node of the same head, making the
associativity flattening a no-op on re-evaluation). -/

/-- `x` is at most as defined as `y`: every defined outcome of `x` (a
value or a raised exception, but not fuel exhaustion) is also `y`'s. -/
def mle {α : Type} (x y : M α) : Prop := ∀ r, x.run = some r → y.run = some r

/-- Pointwise `mle` between two evaluators. -/
def EvLE (E E' : Ev) : Prop := ∀ e, mle (E e) (E' e)

/-- Monotonicity of a downvalue in the evaluator argument. -/
def RuleMono (F : RuleFn) : Prop :=
  ∀ E E' : Ev, EvLE E E' → ∀ e, mle (F E e) (F E' e)

theorem mle_refl {α : Type} (x : M α) : mle x x := fun _ h => h

theorem mle_bind {α β : Type} {x y : M α} {f g : α → M β} (hx : mle x y)
    (hf : ∀ a, mle (f a) (g a)) : mle (x >>= f) (y >>= g) := by
  intro r h
  rw [ExceptT.run_bind] at h ⊢
  cases hx1 : x.run with
  | none => rw [hx1] at h; exact absurd h (by simp)
  | some v =>
    rw [hx1] at h
    rw [hx v hx1]
    cases v with
    | error e => simpa using h
    | ok a => exact hf a r (by simpa using h)

theorem mle_foldlM {α β : Type} {f g : α → β → M α} (xs : List β)
    (h : ∀ a b, mle (f a b) (g a b)) :
    ∀ a, mle (xs.foldlM f a) (xs.foldlM g a) := by
  induction xs with
  | nil => intro a; exact mle_refl _
  | cons x xs ih =>
    intro a
    rw [List.foldlM_cons, List.foldlM_cons]
    exact mle_bind (h a x) fun a2 => ih a2

theorem mle_mapM_loop {α β : Type} {f g : α → M β} (xs : List α)
    (h : ∀ a, mle (f a) (g a)) :
    ∀ acc, mle (List.mapM.loop f xs acc) (List.mapM.loop g xs acc) := by
  induction xs with
  | nil => intro acc; exact mle_refl _
  | cons x xs ih =>
    intro acc
    rw [List.mapM.loop, List.mapM.loop]
    exact mle_bind (h x) fun b => ih (b :: acc)

theorem mle_mapM {α β : Type} {f g : α → M β} (xs : List α)
    (h : ∀ a, mle (f a) (g a)) : mle (xs.mapM f) (xs.mapM g) :=
  mle_mapM_loop xs h []

theorem mle_pyAdd {E E' : Ev} (h : EvLE E E') (a b : Val) :
    mle (pyAdd E a b) (pyAdd E' a b) := by
  cases a <;> cases b <;> first
    | exact h _
    | exact mle_refl _

theorem mle_pyMul {E E' : Ev} (h : EvLE E E') (a b : Val) :
    mle (pyMul E a b) (pyMul E' a b) := by
  cases a <;> cases b <;> first
    | exact h _
    | exact mle_refl _
    | (casesm NumV <;> first
        | exact h _
        | exact mle_refl _)

theorem mle_pySub {E E' : Ev} (h : EvLE E E') (a b : Val) :
    mle (pySub E a b) (pySub E' a b) := by
  cases a <;> cases b <;> first
    | exact h _
    | exact mle_refl _

theorem mle_pyNeg {E E' : Ev} (h : EvLE E E') (a : Val) :
    mle (pyNeg E a) (pyNeg E' a) := by
  cases a <;> first
    | exact h _
    | exact mle_refl _

theorem mle_pyPowOp {E E' : Ev} (h : EvLE E E') (a b : Val) :
    mle (pyPowOp E a b) (pyPowOp E' a b) := by
  cases a <;> cases b <;> first
    | exact h _
    | exact mle_refl _

theorem mle_sumPy {E E' : Ev} (h : EvLE E E') (xs : List Val) :
    mle (sumPy E xs) (sumPy E' xs) :=
  mle_foldlM xs (fun acc x => mle_pyAdd h acc x) (iV 0)

theorem mle_pyGetItem {E E' : Ev} (h : EvLE E E') (m : Val) (idxs : List Val) :
    mle (pyGetItem E m idxs) (pyGetItem E' m idxs) := h _

theorem mle_fracF {E E' : Ev} (h : EvLE E E') (a b : Val) :
    mle (fracF E a b) (fracF E' a b) := h _

theorem mle_ite {α : Type} {c : Prop} [Decidable c] {x x' y y' : M α}
    (hx : mle x x') (hy : mle y y') :
    mle (if c then x else y) (if c then x' else y') := by
  by_cases hc : c
  · simpa [hc] using hx
  · simpa [hc] using hy

theorem mle_mergeTermT {E E' : Ev} (h : EvLE E E') (exp val : Val) :
    ∀ ts, mle (mergeTermT E exp val ts) (mergeTermT E' exp val ts) := by
  intro ts
  induction ts with
  | nil => exact mle_refl _
  | cons p rest ih =>
    obtain ⟨e0, v0⟩ := p
    unfold mergeTermT
    split
    · exact mle_bind (mle_pyAdd h exp e0) fun e2 => mle_refl _
    · exact mle_bind ih fun rest2 => mle_refl _

theorem mle_tcStep {E E' : Ev} (h : EvLE E E') (st : TCState) (a : Val) :
    mle (tcStep E st a) (tcStep E' st a) := by
  unfold tcStep
  refine mle_bind (mle_refl _) fun p => ?_
  obtain ⟨exp, val⟩ := p
  exact mle_ite (mle_refl _) (mle_ite (mle_refl _)
    (mle_bind (mle_mergeTermT h exp val st.terms) fun terms2 => mle_refl _))

theorem ruleMono_plusCollect : RuleMono rulePlusCollect := by
  intro E E' h e
  unfold rulePlusCollect
  cases e <;> try exact mle_refl _
  exact mle_bind
    (mle_foldlM _ (fun (acc : List Val) (ct : Val × Val) =>
      mle_bind (mle_pyMul h ct.1 ct.2) fun t => mle_refl _) [])
    fun args2 => mle_refl _

theorem ruleMono_timesCollect : RuleMono ruleTimesCollect := by
  intro E E' h e
  unfold ruleTimesCollect
  cases e <;> try exact mle_refl _
  refine mle_bind (mle_foldlM _ (fun st a => mle_tcStep h st a) _) fun st => ?_
  refine mle_ite (mle_refl _) ?_
  exact mle_bind
    (mle_foldlM _ (fun (acc : List Val) (ev2 : Val × Val) =>
      mle_ite (mle_bind (mle_refl _) fun y => mle_refl _)
        (mle_bind (mle_pyPowOp h ev2.2 ev2.1) fun y => mle_refl _)) _)
    fun args2 => mle_refl _

theorem ruleMono_powConstants : RuleMono rulePowConstants := by
  intro E E' h e
  unfold rulePowConstants
  cases e <;> try exact mle_refl _
  rename_i hd args
  cases args with
  | nil => exact mle_refl _
  | cons a rest =>
    cases rest with
    | nil => exact mle_refl _
    | cons b rest2 =>
      cases rest2 with
      | cons c rest3 => exact mle_refl _
      | nil =>
        refine mle_ite (mle_refl _) (mle_ite (mle_refl _) ?_)
        cases a with
        | num av =>
          refine mle_ite (mle_bind (mle_pyPowOp h _ _) fun t1 =>
            mle_bind (mle_pyMul h _ _) fun tb =>
              mle_bind (mle_pyPowOp h _ _) fun t2 => mle_pyMul h t1 t2) ?_
          cases b with
          | num bv => cases bv <;> exact mle_refl _
          | str s => cases av <;> first | exact mle_pyPowOp h _ _ | exact mle_refl _
          | list l => cases av <;> first | exact mle_pyPowOp h _ _ | exact mle_refl _
          | tup l => cases av <;> first | exact mle_pyPowOp h _ _ | exact mle_refl _
          | expr h2 as2 =>
            cases av <;> first | exact mle_pyPowOp h _ _ | exact mle_refl _
        | str s => exact mle_ite (mle_pyPowOp h _ _) (mle_refl _)
        | list l => exact mle_ite (mle_pyPowOp h _ _) (mle_refl _)
        | tup l => exact mle_ite (mle_pyPowOp h _ _) (mle_refl _)
        | expr h2 as2 => exact mle_ite (mle_pyPowOp h _ _) (mle_refl _)

theorem ruleMono_powPow : RuleMono rulePowPow := by
  intro E E' h e
  unfold rulePowPow
  cases e <;> try exact mle_refl _
  rename_i hd args
  cases args with
  | nil => exact mle_refl _
  | cons a rest =>
    cases rest with
    | nil => exact mle_refl _
    | cons b rest2 =>
      cases rest2 with
      | cons c rest3 => exact mle_refl _
      | nil =>
        refine mle_ite ?_ (mle_refl _)
        cases a with
        | expr h0 args0 =>
          cases args0 with
          | nil => exact mle_refl _
          | cons a0 r0 =>
            cases r0 with
            | nil => exact mle_refl _
            | cons a1 r1 => exact mle_bind (mle_pyMul h a1 b) fun m => mle_refl _
        | num v => exact mle_refl _
        | str s => exact mle_refl _
        | list l => exact mle_refl _
        | tup l => exact mle_refl _

theorem ruleMono_mulPow : RuleMono ruleMulPow := by
  intro E E' h e
  unfold ruleMulPow
  cases e <;> try exact mle_refl _
  rename_i hd args
  cases args with
  | nil => exact mle_refl _
  | cons a rest =>
    cases rest with
    | nil => exact mle_refl _
    | cons b rest2 =>
      cases rest2 with
      | cons c rest3 => exact mle_refl _
      | nil =>
        refine mle_ite ?_ (mle_refl _)
        cases a with
        | expr h0 args0 =>
          cases args0 with
          | nil => exact mle_refl _
          | cons a0 r0 =>
            cases r0 with
            | nil => exact mle_refl _
            | cons a1 r1 =>
              exact mle_bind (mle_pyPowOp h a0 b) fun p0 =>
                mle_bind (mle_pyPowOp h a1 b) fun p1 => mle_pyMul h p0 p1
        | num v => exact mle_refl _
        | str s => exact mle_refl _
        | list l => exact mle_refl _
        | tup l => exact mle_refl _

theorem ruleMono_iPow : RuleMono ruleIPow := by
  intro E E' h e
  unfold ruleIPow
  cases e <;> try exact mle_refl _
  rename_i hd args
  cases args with
  | nil => exact mle_refl _
  | cons a rest =>
    cases rest with
    | nil => exact mle_refl _
    | cons b rest2 =>
      cases rest2 with
      | cons c rest3 => exact mle_refl _
      | nil =>
        cases b <;> try exact mle_refl _
        rename_i bv
        cases bv <;> try exact mle_refl _
        exact mle_ite
          (mle_ite (mle_refl _) (mle_ite (mle_refl _)
            (mle_ite (mle_refl _) (mle_pyNeg h cI))))
          (mle_refl _)

theorem ruleMono_timesFracCollect : RuleMono ruleTimesFracCollect :=
  fun _ _ _ _ => mle_refl _

theorem ruleMono_expLn : RuleMono ruleExpLn := fun _ _ _ _ => mle_refl _

theorem ruleMono_ln : RuleMono ruleLn := fun _ _ _ _ => mle_refl _

theorem ruleMono_sin : RuleMono ruleSin := fun _ _ _ _ => mle_refl _

theorem ruleMono_cos : RuleMono ruleCos := fun _ _ _ _ => mle_refl _

theorem ruleMono_abs : RuleMono ruleAbs := fun _ _ _ _ => mle_refl _

theorem ruleMono_partVector : RuleMono rulePartVector := fun _ _ _ _ => mle_refl _

theorem ruleMono_partMatrix : RuleMono rulePartMatrix := fun _ _ _ _ => mle_refl _

theorem ruleMono_transpose : RuleMono ruleTranspose := fun _ _ _ _ => mle_refl _

theorem ruleMono_blockMatrix : RuleMono ruleBlockMatrix := fun _ _ _ _ => mle_refl _

theorem mle_detExpand {E E' : Ev} (h : EvLE E E') :
    ∀ (fuel : Nat) (rows : List (List Val)),
    mle (detExpand E fuel rows) (detExpand E' fuel rows) := by
  intro fuel
  induction fuel with
  | zero => intro rows; exact mle_refl _
  | succ fuel ih =>
    intro rows
    unfold detExpand
    cases rows with
    | nil =>
      refine mle_foldlM _ (fun acc i => ?_) _
      refine mle_bind (mle_refl _) fun row => ?_
      refine mle_bind (mle_refl _) fun entry => ?_
      refine mle_bind (mle_pyMul h _ _) fun t1 => ?_
      refine mle_bind (ih _) fun d => ?_
      exact mle_bind (mle_pyMul h _ _) fun t2 => mle_pyAdd h acc t2
    | cons r rest =>
      cases rest with
      | nil => exact mle_refl _
      | cons r2 rest2 =>
        refine mle_foldlM _ (fun acc i => ?_) _
        refine mle_bind (mle_refl _) fun row => ?_
        refine mle_bind (mle_refl _) fun entry => ?_
        refine mle_bind (mle_pyMul h _ _) fun t1 => ?_
        refine mle_bind (ih _) fun d => ?_
        exact mle_bind (mle_pyMul h _ _) fun t2 => mle_pyAdd h acc t2

theorem ruleMono_det : RuleMono ruleDet := by
  intro E E' h e
  unfold ruleDet
  cases e <;> try exact mle_refl _
  rename_i hd args
  cases args with
  | nil => exact mle_refl _
  | cons m rest =>
    cases rest with
    | cons c r2 => exact mle_refl _
    | nil =>
      refine mle_ite (mle_refl _) ?_
      cases hrows : rowsOf m with
      | none => exact mle_refl _
      | some rows =>
        exact mle_bind (mle_refl _) fun r0 =>
          mle_ite (mle_refl _) (mle_detExpand h _ rows)

theorem ruleMono_tr : RuleMono ruleTr := by
  intro E E' h e
  unfold ruleTr
  cases e <;> try exact mle_refl _
  rename_i hd args
  cases args with
  | nil => exact mle_refl _
  | cons m rest =>
    cases rest with
    | cons c r2 => exact mle_refl _
    | nil =>
      refine mle_ite (mle_refl _) ?_
      cases hrows : rowsOf m with
      | none => exact mle_refl _
      | some rows =>
        refine mle_bind (mle_refl _) fun r0 => ?_
        refine mle_ite (mle_refl _) ?_
        refine mle_foldlM _ (fun acc i => ?_) _
        exact mle_bind (mle_pyGetItem h m _) fun p => mle_pyAdd h acc p

theorem ruleMono_dot : RuleMono ruleDot := by
  intro E E' h e
  unfold ruleDot
  cases e <;> try exact mle_refl _
  rename_i hd args
  cases args with
  | nil => exact mle_refl _
  | cons v rest =>
    cases rest with
    | nil => exact mle_refl _
    | cons w rest2 =>
      cases rest2 with
      | cons c rest3 => exact mle_refl _
      | nil =>
        refine mle_ite (mle_refl _) ?_
        cases hrv : rowsOf v with
        | none =>
          cases hrw : rowsOf w with
          | none => exact mle_refl _
          | some rw2 => exact mle_refl _
        | some rv =>
          cases hrw : rowsOf w with
          | none => exact mle_refl _
          | some rw2 =>
            refine mle_ite (mle_refl _) ?_
            refine mle_foldlM _ (fun acc rr => ?_) _
            refine mle_foldlM _ (fun acc2 ab => ?_) acc
            exact mle_bind (mle_pyMul h ab.1 ab.2) fun p => mle_pyAdd h acc2 p

theorem ruleMono_scalarMultiplication : RuleMono ruleScalarMultiplication := by
  intro E E' h e
  unfold ruleScalarMultiplication
  cases e <;> try exact mle_refl _
  rename_i hd args
  dsimp only
  refine mle_ite (mle_refl _) ?_
  cases hidx : args.toList.findIdx? isMatrixHead with
  | none => exact mle_refl _
  | some i =>
    refine mle_bind (mle_refl _) fun a => ?_
    refine mle_bind (h _) fun rest => ?_
    cases hrows : rowsOf a with
    | none => exact mle_refl _
    | some rows =>
      exact mle_bind
        (mle_mapM _ fun r => mle_mapM _ fun x => mle_pyMul h rest x)
        fun rows2 => mle_refl _

theorem ruleMono_matrixAddition : RuleMono ruleMatrixAddition := by
  intro E E' h e
  unfold ruleMatrixAddition
  cases e <;> try exact mle_refl _
  rename_i hd args
  dsimp only
  cases hp : findMatrixPair args.toList with
  | none => exact mle_refl _
  | some p =>
    obtain ⟨i, j⟩ := p
    refine mle_bind (mle_refl _) fun ai => ?_
    refine mle_bind (mle_refl _) fun aj => ?_
    cases hri : rowsOf ai with
    | none =>
      cases hrj : rowsOf aj with
      | none => exact mle_refl _
      | some rj => exact mle_refl _
    | some ri =>
      cases hrj : rowsOf aj with
      | none => exact mle_refl _
      | some rj =>
        refine mle_ite (mle_refl _) ?_
        refine mle_ite (mle_refl _) ?_
        exact mle_bind
          (mle_mapM _ fun rr => mle_mapM _ fun cc => mle_pyAdd h cc.1 cc.2)
          fun rows2 => mle_refl _

theorem ruleMono_reduceMatmul : RuleMono ruleReduceMatmul := by
  intro E E' h e
  unfold ruleReduceMatmul
  cases e <;> try exact mle_refl _
  rename_i hd args
  cases args with
  | nil => exact mle_refl _
  | cons A rest =>
    cases rest with
    | nil => exact mle_refl _
    | cons B rest2 =>
      cases rest2 with
      | cons c rest3 => exact mle_refl _
      | nil =>
        refine mle_ite (mle_refl _) ?_
        refine mle_ite (mle_refl _) ?_
        cases hra : rowsOf A with
        | none =>
          cases hrb : rowsOf B with
          | none => exact mle_refl _
          | some rb => exact mle_refl _
        | some ra =>
          cases hrb : rowsOf B with
          | none => exact mle_refl _
          | some rb =>
            refine mle_ite (mle_refl _) ?_
            refine mle_bind (mle_mapM _ fun i => mle_mapM _ fun j =>
              mle_foldlM _ (fun x k => ?_) _) fun rows2 => mle_refl _
            refine mle_bind (mle_pyGetItem h A _) fun a => ?_
            refine mle_bind (mle_pyGetItem h B _) fun b => ?_
            exact mle_bind (mle_pyMul h a b) fun t => mle_pyAdd h x t

theorem ruleMono_reduceLinearComb : RuleMono ruleReduceLinearComb := by
  intro E E' h e
  unfold ruleReduceLinearComb
  cases e <;> try exact mle_refl _
  rename_i hd args
  cases args with
  | nil => exact mle_refl _
  | cons lst rest =>
    cases rest with
    | nil => exact mle_refl _
    | cons c rest2 =>
      cases rest2 with
      | cons d rest3 => exact mle_refl _
      | nil =>
        cases lst <;> try exact mle_refl _
        rename_i xs
        refine mle_ite (mle_refl _) ?_
        cases hrc : rowsOf c with
        | none => exact mle_refl _
        | some rc =>
          refine mle_bind (mle_refl _) fun r0 => ?_
          refine mle_ite (mle_refl _) ?_
          refine mle_ite (mle_refl _) ?_
          refine mle_bind (mle_refl _) fun x0 => ?_
          refine mle_bind (mle_pyGetItem h c _) fun c1 => ?_
          refine mle_bind (mle_pyMul h c1 x0) fun res => ?_
          refine mle_foldlM _ (fun res2 i => ?_) res
          refine mle_bind (mle_refl _) fun xi => ?_
          refine mle_bind (mle_pyGetItem h c _) fun ci => ?_
          exact mle_bind (mle_pyMul h ci xi) fun t => mle_pyAdd h res2 t

theorem ruleMono_minors : RuleMono ruleMinors := by
  intro E E' h e
  unfold ruleMinors
  cases e <;> try exact mle_refl _
  rename_i hd args
  cases args with
  | nil => exact mle_refl _
  | cons m rest =>
    cases rest with
    | cons c r2 => exact mle_refl _
    | nil =>
      refine mle_ite (mle_refl _) ?_
      cases hrows : rowsOf m with
      | none => exact mle_refl _
      | some rows =>
        refine mle_bind (mle_refl _) fun r0 => ?_
        refine mle_ite (mle_refl _) ?_
        refine mle_bind (mle_mapM _ fun i => mle_mapM _ fun j => ?_)
          fun rows2 => mle_refl _
        exact mle_bind (mle_refl _) fun subM => h _

theorem ruleMono_adj : RuleMono ruleAdj := by
  intro E E' h e
  unfold ruleAdj
  cases e <;> try exact mle_refl _
  rename_i hd args
  cases args with
  | nil => exact mle_refl _
  | cons m rest =>
    cases rest with
    | cons c r2 => exact mle_refl _
    | nil =>
      refine mle_ite (mle_refl _) ?_
      cases hrows : rowsOf m with
      | none => exact mle_refl _
      | some rows =>
        refine mle_bind (mle_refl _) fun r0 => ?_
        refine mle_ite (mle_refl _) ?_
        refine mle_ite (mle_refl _) ?_
        refine mle_bind (mle_mapM _ fun i => mle_mapM _ fun j => ?_)
          fun rows2 => mle_refl _
        refine mle_bind (mle_refl _) fun subM => ?_
        exact mle_bind (h _) fun d => mle_pyMul h _ d

theorem mle_matPowLoop {E E' : Ev} (h : EvLE E E') :
    ∀ (fuel i npos : Nat) (P B : Val),
    mle (matPowLoop E fuel i npos P B) (matPowLoop E' fuel i npos P B) := by
  intro fuel
  induction fuel with
  | zero => intro i npos P B; exact mle_refl _
  | succ fuel ih =>
    intro i npos P B
    unfold matPowLoop
    refine mle_ite ?_ (mle_refl _)
    exact mle_ite
      (mle_bind (h _) fun y => mle_bind (h _) fun B2 => ih _ _ _ _)
      (mle_bind (mle_refl _) fun y => mle_bind (h _) fun B2 => ih _ _ _ _)

theorem ruleMono_matrixInverse : RuleMono ruleMatrixInverse := by
  intro E E' h e
  unfold ruleMatrixInverse
  cases e <;> try exact mle_refl _
  rename_i hd args
  cases args with
  | nil => exact mle_refl _
  | cons A rest =>
    cases rest with
    | nil => exact mle_refl _
    | cons nv rest2 =>
      cases rest2 with
      | cons c rest3 => exact mle_refl _
      | nil =>
        cases nv <;> try exact mle_refl _
        rename_i nvv
        cases nvv <;> try exact mle_refl _
        refine mle_ite (mle_refl _) ?_
        cases hra : rowsOf A with
        | none => exact mle_refl _
        | some rows =>
          refine mle_ite (mle_refl _) ?_
          refine mle_bind (h _) fun nabs => ?_
          cases nabs <;> try exact mle_refl _
          rename_i nav
          cases nav <;> try exact mle_refl _
          refine mle_bind (mle_refl _) fun Pinit => ?_
          refine mle_bind (mle_matPowLoop h _ _ _ _ _) fun P => ?_
          refine mle_ite (mle_refl _) ?_
          refine mle_bind (h _) fun d => ?_
          refine mle_ite (mle_refl _) ?_
          refine mle_bind (h _) fun a2 => ?_
          cases hra2 : rowsOf a2 with
          | none => exact mle_refl _
          | some ra =>
            exact mle_bind
              (mle_mapM _ fun r => mle_mapM _ fun v => mle_fracF h v d)
              fun rows2 => mle_refl _

theorem mle_scaleRow {E E' : Ev} (h : EvLE E E') (mat : List (List Val))
    (i : Nat) (c : Val) : mle (scaleRow E mat i c) (scaleRow E' mat i c) := by
  unfold scaleRow
  exact mle_bind (mle_mapM _ fun x => mle_pyMul h x c) fun row2 => mle_refl _

theorem mle_replaceRow {E E' : Ev} (h : EvLE E E') (mat : List (List Val))
    (i j : Nat) (c : Val) : mle (replaceRow E mat i j c) (replaceRow E' mat i j c) := by
  unfold replaceRow
  refine mle_bind (mle_mapM _ fun xy => ?_) fun row2 => mle_refl _
  exact mle_bind (mle_pyMul h c xy.2) fun t => mle_pyAdd h xy.1 t

theorem mle_rrPivotStep {E E' : Ev} (h : EvLE E E') (st : RRState) :
    mle (rrPivotStep E st) (rrPivotStep E' st) := by
  have hrest : ∀ (mat0 : List (List Val)) (i0 j0 : Nat) (ln0 : Int),
      mle ((List.range' (i0 + 1) ((ln0 + 1).toNat - (i0 + 1))).foldlM
          (fun mat k =>
            if ¬ peq (getEnt mat k j0) (iV 0) then do
              let c ← pyNeg E (getEnt mat k j0)
              replaceRow E mat k i0 c
            else pure mat) mat0)
        ((List.range' (i0 + 1) ((ln0 + 1).toNat - (i0 + 1))).foldlM
          (fun mat k =>
            if ¬ peq (getEnt mat k j0) (iV 0) then do
              let c ← pyNeg E' (getEnt mat k j0)
              replaceRow E' mat k i0 c
            else pure mat) mat0) := by
    intro mat0 i0 j0 ln0
    refine mle_foldlM _ (fun mat k => ?_) mat0
    exact mle_ite (mle_bind (mle_pyNeg h _) fun c => mle_replaceRow h _ _ _ c)
      (mle_refl _)
  unfold rrPivotStep
  refine mle_ite ?_ ?_
  · cases hf : (List.range' (st.i + 1) ((st.lastNz + 1).toNat - (st.i + 1))).find?
        (fun k => ¬ peq (getEnt st.mat k st.j) (iV 0)) with
    | some k =>
      refine mle_bind (mle_refl _) fun st2 => ?_
      refine mle_ite (mle_refl _) ?_
      exact mle_ite
        (mle_bind (mle_fracF h _ _) fun c =>
          mle_bind (mle_scaleRow h _ _ c) fun y =>
            mle_bind (hrest _ _ _ _) fun m2 => mle_refl _)
        (mle_bind (mle_refl _) fun y =>
          mle_bind (hrest _ _ _ _) fun m2 => mle_refl _)
    | none =>
      refine mle_bind (mle_refl _) fun st2 => ?_
      refine mle_ite (mle_refl _) ?_
      exact mle_ite
        (mle_bind (mle_fracF h _ _) fun c =>
          mle_bind (mle_scaleRow h _ _ c) fun y =>
            mle_bind (hrest _ _ _ _) fun m2 => mle_refl _)
        (mle_bind (mle_refl _) fun y =>
          mle_bind (hrest _ _ _ _) fun m2 => mle_refl _)
  · refine mle_bind (mle_refl _) fun st2 => ?_
    refine mle_ite (mle_refl _) ?_
    exact mle_ite
      (mle_bind (mle_fracF h _ _) fun c =>
        mle_bind (mle_scaleRow h _ _ c) fun y =>
          mle_bind (hrest _ _ _ _) fun m2 => mle_refl _)
      (mle_bind (mle_refl _) fun y =>
        mle_bind (hrest _ _ _ _) fun m2 => mle_refl _)

theorem mle_rrLoop {E E' : Ev} (h : EvLE E E') (toCol : Nat) :
    ∀ (fuel : Nat) (st : RRState),
    mle (rrLoop E toCol fuel st) (rrLoop E' toCol fuel st) := by
  intro fuel
  induction fuel with
  | zero => intro st; exact mle_refl _
  | succ fuel ih =>
    intro st
    unfold rrLoop
    refine mle_ite ?_ (mle_refl _)
    refine mle_ite ?_ ?_
    · refine mle_ite (mle_refl _) ?_
      exact mle_bind (mle_rrPivotStep h _) fun st3 => ih st3
    · exact mle_bind (mle_rrPivotStep h _) fun st3 => ih st3

theorem mle_rrefPhase {E E' : Ev} (h : EvLE E E') (toCol : Nat) (st : RRState) :
    mle (rrefPhase E toCol st) (rrefPhase E' toCol st) := by
  unfold rrefPhase
  refine mle_foldlM _ (fun mat i => ?_) _
  cases hf : (List.range toCol).find? (fun j => ¬ peq (getEnt mat i j) (iV 0)) with
  | none => exact mle_refl _
  | some j =>
    refine mle_foldlM _ (fun mat2 k => ?_) mat
    exact mle_ite
      (mle_bind (mle_pyNeg h _) fun c => mle_replaceRow h _ _ _ c)
      (mle_refl _)

set_option maxHeartbeats 1000000 in
theorem mle_rowReduceV {E E' : Ev} (h : EvLE E E') (e : Val) (rref : Bool) :
    mle (rowReduceV E e rref) (rowReduceV E' e rref) := by
  unfold rowReduceV
  refine mle_ite (mle_refl _) ?_
  cases hrows : rowsOf e with
  | none => exact mle_refl _
  | some mat =>
    dsimp only
    refine mle_bind (mle_rrLoop h _ _ _) fun st => ?_
    exact mle_ite
      (mle_bind (mle_rrefPhase h _ st) fun y => mle_refl _)
      (mle_bind (mle_refl _) fun y => mle_refl _)

theorem ruleMono_rank : RuleMono ruleRank := by
  intro E E' h e
  unfold ruleRank
  cases e with
  | num v => exact mle_refl _
  | str s => exact mle_refl _
  | list l => exact mle_refl _
  | tup l => exact mle_refl _
  | expr hd args =>
  cases args with
  | nil => exact mle_refl _
  | cons m rest =>
    cases rest with
    | cons c r2 => exact mle_refl _
    | nil =>
      refine mle_ite (mle_refl _) ?_
      exact mle_bind (mle_rowReduceV h m false) fun r => mle_refl _

theorem ruleMono_nullity : RuleMono ruleNullity := by
  intro E E' h e
  unfold ruleNullity
  cases e <;> try exact mle_refl _
  rename_i hd args
  cases args with
  | nil => exact mle_refl _
  | cons m rest =>
    cases rest with
    | cons c r2 => exact mle_refl _
    | nil =>
      refine mle_ite (mle_refl _) ?_
      cases hrows : rowsOf m with
      | none => exact mle_refl _
      | some rows => exact mle_bind (h _) fun r => mle_refl _

theorem ruleMono_norm : RuleMono ruleNorm := by
  intro E E' h e
  unfold ruleNorm
  cases e <;> try exact mle_refl _
  rename_i hd args
  cases args with
  | nil => exact mle_refl _
  | cons m rest =>
    cases rest with
    | cons c r2 => exact mle_refl _
    | nil =>
      refine mle_ite (mle_refl _) ?_
      cases hrows : rowsOf m with
      | none => exact mle_refl _
      | some rows =>
        refine mle_bind (mle_foldlM _ (fun s r => mle_foldlM _ (fun s2 v => ?_) s) _)
          fun s => h _
        refine mle_bind (h _) fun a => ?_
        exact mle_bind (mle_pyPowOp h a _) fun p => mle_pyAdd h s2 p

theorem mle_mwCols {E E' : Ev} (h : EvLE E E') (cols : List Val) :
    mle (mwCols E cols) (mwCols E' cols) := by
  unfold mwCols
  exact mle_ite (mle_refl _) (h _)

theorem ruleMono_normalize : RuleMono ruleNormalize := by
  intro E E' h e
  unfold ruleNormalize
  cases e <;> try exact mle_refl _
  rename_i hd args
  cases args with
  | nil => exact mle_refl _
  | cons m rest =>
    cases rest with
    | cons c r2 => exact mle_refl _
    | nil =>
      refine mle_ite (mle_refl _) ?_
      cases hrows : rowsOf m with
      | none => exact mle_refl _
      | some rows =>
        refine mle_bind (mle_refl _) fun colVs => ?_
        refine mle_bind (mle_mapM _ fun cv => ?_) fun cols2 => mle_mwCols h cols2
        refine mle_bind (h _) fun n => ?_
        exact mle_bind (mle_pyPowOp h n _) fun p => mle_pyMul h p cv

theorem mle_throw_bind {α β : Type} (err : PyErr) (f g : α → M β) :
    mle (throw err >>= f) (throw err >>= g) := by
  intro r hr
  rw [ExceptT.run_bind] at hr ⊢
  rw [show (throw err : M α).run = some (.error err) from rfl] at hr ⊢
  simpa using hr

theorem mle_mergeSpecEntry {E E' : Ev} (h : EvLE E E') (v n : Val) :
    ∀ ts, mle (mergeSpecEntry E v n ts) (mergeSpecEntry E' v n ts) := by
  intro ts
  induction ts with
  | nil => exact mle_refl _
  | cons p rest ih =>
    obtain ⟨v2, n2⟩ := p
    unfold mergeSpecEntry
    refine mle_ite ?_ ?_
    · exact mle_bind (mle_pyAdd h n n2) fun s => mle_refl _
    · exact mle_bind ih fun rest2 => mle_refl _

theorem mle_normalizeDerivSpec {E E' : Ev} (h : EvLE E E') (spec : Val) :
    mle (normalizeDerivSpec E spec) (normalizeDerivSpec E' spec) := by
  unfold normalizeDerivSpec
  cases spec <;> try exact mle_refl _
  rename_i entries
  refine mle_bind (mle_foldlM _ (fun acc x => ?_) _) fun pairs => mle_refl _
  refine mle_bind (mle_refl _) fun p => ?_
  obtain ⟨v, n⟩ := p
  refine mle_ite (mle_refl _) ?_
  refine mle_ite ?_ (mle_mergeSpecEntry h v n acc)
  cases n <;> try exact mle_refl _
  rename_i nv
  cases nv <;> try exact mle_refl _
  exact mle_ite (mle_refl _) (mle_mergeSpecEntry h v _ acc)

theorem mle_fnDerivsCase {E E' : Ev} (h : EvLE E E') (e constants : Val)
    (entries : List Val) :
    mle (fnDerivsCase E e constants entries) (fnDerivsCase E' e constants entries) := by
  unfold fnDerivsCase
  cases e with
  | num v => exact mle_refl _
  | str s => exact mle_refl _
  | list l => exact mle_refl _
  | tup l => exact mle_refl _
  | expr hd args =>
    dsimp only
    by_cases h1 : peq hd (Val.str "Pow") = true ∧ args.length = 2
    · rw [if_pos h1, if_pos h1]
      cases args with
      | nil => exact mle_refl _
      | cons a rest =>
        cases rest with
        | nil => exact mle_refl _
        | cons b rest2 =>
          cases rest2 with
          | cons c r3 => exact mle_refl _
          | nil =>
            refine mle_bind (mle_refl _) fun p => ?_
            obtain ⟨specS, v?⟩ := p
            cases v? with
            | none => exact mle_refl _
            | some v =>
              refine mle_bind ?_ fun de => ?_
              · exact mle_bind (mle_pySub h _ _) fun bm1 =>
                  mle_bind (mle_pyPowOp h _ _) fun p1 =>
                    mle_bind (mle_pyMul h _ _) fun d1 =>
                      mle_bind (h _) fun la =>
                        mle_bind (mle_pyMul h _ _) fun bla =>
                          mle_bind (mle_pyPowOp h _ _) fun d2 => mle_refl _
              · refine mle_bind (mle_refl _) fun z => ?_
                refine mle_bind (mle_foldlM _ (fun acc ab => ?_) _)
                  fun deriv => mle_refl _
                exact mle_bind (mle_pyMul h ab.1 ab.2) fun t => mle_pyAdd h acc t
    · rw [if_neg h1, if_neg h1]
      by_cases h2 : peq hd (Val.str "ln") = true ∧ args.length = 1
      · rw [if_pos h2, if_pos h2]
        cases args with
        | nil => exact mle_refl _
        | cons a rest =>
          cases rest with
          | cons b rest2 => exact mle_refl _
          | nil =>
            refine mle_bind (mle_refl _) fun p => ?_
            obtain ⟨specS, v?⟩ := p
            cases v? with
            | none => exact mle_refl _
            | some v =>
              refine mle_bind (mle_bind (mle_fracF h _ _) fun d => mle_refl _)
                fun de => ?_
              refine mle_bind (mle_refl _) fun z => ?_
              refine mle_bind (mle_foldlM _ (fun acc ab => ?_) _)
                fun deriv => mle_refl _
              exact mle_bind (mle_pyMul h ab.1 ab.2) fun t => mle_pyAdd h acc t
      · rw [if_neg h2, if_neg h2]
        by_cases h3 : peq hd (Val.str "cos") = true ∧ args.length = 1
        · rw [if_pos h3, if_pos h3]
          cases args with
          | nil => exact mle_refl _
          | cons a rest =>
            cases rest with
            | cons b rest2 => exact mle_refl _
            | nil =>
              refine mle_bind (mle_refl _) fun p => ?_
              obtain ⟨specS, v?⟩ := p
              cases v? with
              | none => exact mle_refl _
              | some v =>
                refine mle_bind (mle_bind (h _) fun d => mle_refl _) fun de => ?_
                refine mle_bind (mle_refl _) fun z => ?_
                refine mle_bind (mle_foldlM _ (fun acc ab => ?_) _)
                  fun deriv => mle_refl _
                exact mle_bind (mle_pyMul h ab.1 ab.2) fun t => mle_pyAdd h acc t
        · rw [if_neg h3, if_neg h3]
          by_cases h4 : peq hd (Val.str "sin") = true ∧ args.length = 1
          · rw [if_pos h4, if_pos h4]
            cases args with
            | nil => exact mle_refl _
            | cons a rest =>
              cases rest with
              | cons b rest2 => exact mle_refl _
              | nil =>
                refine mle_bind (mle_refl _) fun p => ?_
                obtain ⟨specS, v?⟩ := p
                cases v? with
                | none => exact mle_refl _
                | some v =>
                  refine mle_bind
                    (mle_bind (h _) fun c =>
                      mle_bind (mle_pyNeg h c) fun d => mle_refl _) fun de => ?_
                  refine mle_bind (mle_refl _) fun z => ?_
                  refine mle_bind (mle_foldlM _ (fun acc ab => ?_) _)
                    fun deriv => mle_refl _
                  exact mle_bind (mle_pyMul h ab.1 ab.2) fun t => mle_pyAdd h acc t
          · rw [if_neg h4, if_neg h4]
            exact mle_refl _

theorem ruleMono_derivBasic : RuleMono ruleDerivBasic := by
  intro E E' h e0
  unfold ruleDerivBasic
  cases e0 with
  | num v => exact mle_refl _
  | str s => exact mle_refl _
  | list l => exact mle_refl _
  | tup l => exact mle_refl _
  | expr hd args =>
    cases args with
    | nil => exact mle_refl _
    | cons ea rest =>
      cases rest with
      | nil => exact mle_refl _
      | cons spec rest2 =>
        cases rest2 with
        | nil => exact mle_refl _
        | cons constants rest3 =>
          cases rest3 with
          | cons x r4 => exact mle_refl _
          | nil =>
            refine mle_bind (mle_normalizeDerivSpec h spec) fun specN => ?_
            refine mle_ite (mle_refl _) ?_
            refine mle_bind (mle_refl _) fun pairs => ?_
            refine mle_bind
              (mle_foldlM _ (fun (acc : Val) (vn : Val × Val) =>
                mle_pyAdd h acc vn.2) _)
              fun total => ?_
            refine mle_ite (mle_refl _) ?_
            refine mle_ite ?_ (mle_bind (mle_refl _) fun y => ?_)
            · cases ea with
              | num v => exact mle_throw_bind _ _ _
              | str s => exact mle_throw_bind _ _ _
              | list l => exact mle_throw_bind _ _ _
              | tup l => exact mle_throw_bind _ _ _
              | expr ph pargs =>
                cases pargs with
                | nil => exact mle_throw_bind _ _ _
                | cons p0 pr =>
                  refine mle_bind (mle_refl _) fun y2 => ?_
                  refine mle_ite (mle_refl _) ?_
                  refine mle_ite (mle_refl _) ?_
                  refine mle_ite (mle_refl _) ?_
                  refine mle_ite (mle_refl _) ?_
                  refine mle_ite ?_ (mle_ite (mle_refl _) (mle_fnDerivsCase h _ _ _))
                  refine mle_bind (mle_refl _) fun p => ?_
                  obtain ⟨specS, v?⟩ := p
                  cases v? with
                  | none => exact mle_refl _
                  | some v =>
                    refine mle_bind (mle_refl _) fun z => ?_
                    exact mle_bind
                      (mle_foldlM _ (fun acc i => mle_pyAdd h acc _) _)
                      fun deriv => mle_refl _
            · refine mle_ite (mle_refl _) ?_
              refine mle_ite (mle_refl _) ?_
              refine mle_ite (mle_refl _) ?_
              refine mle_ite (mle_refl _) ?_
              refine mle_ite ?_ (mle_ite (mle_refl _) (mle_fnDerivsCase h _ _ _))
              refine mle_bind (mle_refl _) fun p => ?_
              obtain ⟨specS, v?⟩ := p
              cases v? with
              | none => exact mle_refl _
              | some v =>
                cases ea <;> try exact mle_refl _
                refine mle_bind (mle_refl _) fun z => ?_
                exact mle_bind
                  (mle_foldlM _ (fun acc i => mle_pyAdd h acc _) _)
                  fun deriv => mle_refl _

set_option maxHeartbeats 1000000 in
theorem downvalues_mono (s : String) : ∀ F ∈ downvalues s, RuleMono F := by
  have hall : ∀ F ∈ [rulePlusCollect, ruleMatrixAddition, ruleTimesCollect,
      ruleTimesFracCollect, ruleScalarMultiplication, rulePowConstants, rulePowPow,
      ruleMulPow, ruleIPow, ruleExpLn, ruleMatrixInverse, ruleLn, ruleSin, ruleCos,
      ruleAbs, ruleTranspose, ruleDot, ruleBlockMatrix, rulePartVector,
      rulePartMatrix, ruleDet, ruleTr, ruleMinors, ruleReduceMatmul,
      ruleReduceLinearComb, ruleAdj, ruleRank, ruleNullity, ruleNorm,
      ruleNormalize, ruleDerivBasic], RuleMono F := by
    intro F hF
    simp only [List.mem_cons, List.not_mem_nil, or_false] at hF
    rcases hF with rfl | rfl | rfl | rfl | rfl | rfl | rfl | rfl | rfl | rfl | rfl |
      rfl | rfl | rfl | rfl | rfl | rfl | rfl | rfl | rfl | rfl | rfl | rfl | rfl |
      rfl | rfl | rfl | rfl | rfl | rfl | rfl
    exacts [ruleMono_plusCollect, ruleMono_matrixAddition, ruleMono_timesCollect,
      ruleMono_timesFracCollect, ruleMono_scalarMultiplication,
      ruleMono_powConstants, ruleMono_powPow, ruleMono_mulPow, ruleMono_iPow,
      ruleMono_expLn, ruleMono_matrixInverse, ruleMono_ln, ruleMono_sin,
      ruleMono_cos, ruleMono_abs, ruleMono_transpose, ruleMono_dot,
      ruleMono_blockMatrix, ruleMono_partVector, ruleMono_partMatrix,
      ruleMono_det, ruleMono_tr, ruleMono_minors, ruleMono_reduceMatmul,
      ruleMono_reduceLinearComb, ruleMono_adj, ruleMono_rank, ruleMono_nullity,
      ruleMono_norm, ruleMono_normalize, ruleMono_derivBasic]
  intro F hF
  apply hall
  unfold downvalues at hF
  split at hF <;>
    first
      | exact absurd hF (List.not_mem_nil F)
      | (simp only [List.mem_cons, List.not_mem_nil, or_false] at hF ⊢; tauto)

theorem tryRules_mono {E E' : Ev} (h : EvLE E E') :
    ∀ rs : List RuleFn, (∀ F ∈ rs, RuleMono F) →
    ∀ e, mle (tryRules E rs e) (tryRules E' rs e) := by
  intro rs
  induction rs with
  | nil => intro _ e; exact mle_refl _
  | cons r rest ih =>
    intro hmono e
    have hr : RuleMono r := hmono r (by simp)
    have hrest := ih (fun F hF => hmono F (by simp [hF]))
    intro res hres
    rw [tryRules] at hres ⊢
    cases hx : (r E e).run with
    | none =>
      rw [hx] at hres
      exact absurd hres (by simp [noFuel, ExceptT.run_mk])
    | some v =>
      rw [hx] at hres
      rw [hr E E' h e v hx]
      cases v with
      | error err =>
        cases err with
        | inapplicable => exact hrest e res hres
        | valueError msg => exact hres
        | zeroDivision => exact hres
        | typeError msg => exact hres
        | assertion msg => exact hres
        | exception msg => exact hres
      | ok e2 =>
        dsimp only at hres ⊢
        by_cases hpe : peq e2 e = true
        · rw [if_pos hpe] at hres ⊢
          exact hrest e res hres
        · rw [if_neg hpe] at hres ⊢
          exact hres

theorem evListAux_mono {E E' : Ev} (h : EvLE E E') :
    ∀ xs, mle (evListAux E xs) (evListAux E' xs)
  | .nil => mle_refl _
  | .cons x xs =>
    mle_bind (h x) fun _ => mle_bind (evListAux_mono h xs) fun _ => mle_refl _

theorem evalStep_mono {E E' : Ev} (h : EvLE E E') (e : Val) :
    mle (evalStep E e) (evalStep E' e) := by
  cases e with
  | num n => exact mle_refl _
  | str s => exact mle_refl _
  | list xs => exact mle_bind (evListAux_mono h xs) fun ys => mle_refl _
  | tup xs => exact mle_bind (evListAux_mono h xs) fun ys => mle_refl _
  | expr hd args =>
    refine mle_bind (h hd) fun h2 => ?_
    refine mle_bind (evListAux_mono h args) fun args2 => ?_
    refine mle_ite (mle_refl _) ?_
    cases h2 with
    | num n => exact mle_refl _
    | list l => exact mle_refl _
    | tup l => exact mle_refl _
    | expr h3 a3 => exact mle_refl _
    | str hs =>
      refine mle_bind
        (tryRules_mono h _
          (fun F hF => downvalues_mono hs F (List.mem_reverse.mp hF)) _)
        fun o => ?_
      cases o with
      | none => exact mle_refl _
      | some e2 => exact h e2

theorem ev_mono : ∀ f g : Nat, f ≤ g → EvLE (ev f) (ev g) := by
  intro f
  induction f with
  | zero =>
    intro g _ e r hres
    exact absurd hres (by simp [ev, noFuel, ExceptT.run_mk])
  | succ f ih =>
    intro g hfg e
    obtain ⟨g2, rfl⟩ : ∃ g2, g = g2 + 1 := ⟨g - 1, by omega⟩
    have hEE : EvLE (ev f) (ev g2) := ih g2 (by omega)
    show mle (evalStep (ev f) e) (evalStep (ev g2) e)
    exact evalStep_mono hEE e

/-! ### The fixpoint property of returned values -/

theorem bind_ok_inv {α β : Type} {x : M α} {f : α → M β} {b : β}
    (h : (x >>= f).run = some (.ok b)) :
    ∃ a, x.run = some (.ok a) ∧ (f a).run = some (.ok b) := by
  rw [ExceptT.run_bind] at h
  cases hx : x.run with
  | none => rw [hx] at h; simp at h
  | some v =>
    rw [hx] at h
    cases v with
    | error err => simp at h
    | ok a => exact ⟨a, rfl, by simpa using h⟩

theorem run_pure_ok {α : Type} {a b : α} (h : (pure a : M α).run = some (.ok b)) :
    a = b := by
  have h2 : some (Except.ok a) = some (Except.ok b) := h
  simpa using h2

/-- No element of an argument sequence is an `Expr` whose head `==` the
(Flat) head `h` — the condition under which the associativity flattening
is the identity. -/
def NoSameHead (h : Val) : ValList → Prop
  | .nil => True
  | .cons a rest =>
    (∀ h2 as2, a = .expr h2 as2 → peq h2 h = false) ∧ NoSameHead h rest

mutual

/-- Hereditary invariant of `evaluate` results at fuel `F`: the head and
every argument of a returned `Expr` node are themselves fixpoints of the
evaluator, hereditarily, and the arguments of a returned `Flat` node
contain no nested node of the same head. -/
def Inner (F : Nat) : Val → Prop
  | .expr h args =>
    (ev F h).run = some (.ok h) ∧ Inner F h ∧
      (isFlat h = true → NoSameHead h args) ∧ InnerList F args
  | _ => True

/-- `Inner` together with the fixpoint property, elementwise. -/
def InnerList (F : Nat) : ValList → Prop
  | .nil => True
  | .cons a as =>
    (ev F a).run = some (.ok a) ∧ Inner F a ∧ InnerList F as

end

mutual

theorem inner_mono {f g : Nat} (hfg : f ≤ g) : ∀ v, Inner f v → Inner g v
  | .num _, _ => trivial
  | .str _, _ => trivial
  | .list _, _ => trivial
  | .tup _, _ => trivial
  | .expr hd args, h => by
    obtain ⟨hfix, hin, hcl, hlist⟩ := h
    exact ⟨ev_mono f g hfg hd _ hfix, inner_mono hfg hd hin, hcl,
      innerList_mono hfg args hlist⟩

theorem innerList_mono {f g : Nat} (hfg : f ≤ g) : ∀ l, InnerList f l → InnerList g l
  | .nil, _ => trivial
  | .cons a as, h => by
    obtain ⟨hfix, hin, hrest⟩ := h
    exact ⟨ev_mono f g hfg a _ hfix, inner_mono hfg a hin,
      innerList_mono hfg as hrest⟩

end

theorem peq_str_eq {x : Val} {s : String} (h : peq x (.str s) = true) :
    x = .str s := by
  cases x <;> simp [peq] at h ⊢
  exact h

theorem noSameHead_append (h : Val) :
    ∀ xs ys, NoSameHead h xs → NoSameHead h ys → NoSameHead h (xs ++ ys)
  | .nil, ys, _, hy => hy
  | .cons a rest, ys, hx, hy => by
    obtain ⟨ha, hrest⟩ := hx
    exact ⟨ha, noSameHead_append h rest ys hrest hy⟩

theorem innerList_append (F : Nat) :
    ∀ xs ys, InnerList F xs → InnerList F ys → InnerList F (xs ++ ys)
  | .nil, ys, _, hy => hy
  | .cons a rest, ys, hx, hy => by
    obtain ⟨hfix, hin, hrest⟩ := hx
    exact ⟨hfix, hin, innerList_append F rest ys hrest hy⟩

theorem flattenArgs_id (h : Val) :
    ∀ args, NoSameHead h args → flattenArgs h args = args
  | .nil, _ => rfl
  | .cons a rest, hn => by
    obtain ⟨ha, hrest⟩ := hn
    unfold flattenArgs
    cases a with
    | expr h2 as2 =>
      dsimp only
      rw [ha h2 as2 rfl]
      simp only [Bool.false_eq_true, if_false]
      rw [flattenArgs_id h rest hrest]
    | num n => dsimp only; rw [flattenArgs_id h rest hrest]
    | str s => dsimp only; rw [flattenArgs_id h rest hrest]
    | list l => dsimp only; rw [flattenArgs_id h rest hrest]
    | tup l => dsimp only; rw [flattenArgs_id h rest hrest]

theorem noSameHead_flatten (F : Nat) (hs : String)
    (hflat : isFlat (.str hs) = true) :
    ∀ args, InnerList F args → NoSameHead (.str hs) (flattenArgs (.str hs) args)
  | .nil, _ => trivial
  | .cons a rest, hl => by
    obtain ⟨hfix, hinner, hrest⟩ := hl
    unfold flattenArgs
    cases a with
    | expr h2 as2 =>
      dsimp only
      by_cases hp : peq h2 (Val.str hs) = true
      · rw [if_pos hp]
        have hh2 : h2 = .str hs := peq_str_eq hp
        subst hh2
        obtain ⟨hfx, hin, hclean, hargsin⟩ := hinner
        exact noSameHead_append _ _ _ (hclean hflat)
          (noSameHead_flatten F hs hflat rest hrest)
      · rw [if_neg hp]
        refine ⟨fun h2' as2' heq => ?_, noSameHead_flatten F hs hflat rest hrest⟩
        cases heq
        simpa using hp
    | num n =>
      dsimp only
      exact ⟨(fun h2' as2' heq => nomatch heq),
        noSameHead_flatten F hs hflat rest hrest⟩
    | str s =>
      dsimp only
      exact ⟨(fun h2' as2' heq => nomatch heq),
        noSameHead_flatten F hs hflat rest hrest⟩
    | list l =>
      dsimp only
      exact ⟨(fun h2' as2' heq => nomatch heq),
        noSameHead_flatten F hs hflat rest hrest⟩
    | tup l =>
      dsimp only
      exact ⟨(fun h2' as2' heq => nomatch heq),
        noSameHead_flatten F hs hflat rest hrest⟩

theorem innerList_flatten (F : Nat) (h : Val) :
    ∀ args, InnerList F args → InnerList F (flattenArgs h args)
  | .nil, _ => trivial
  | .cons a rest, hl => by
    obtain ⟨hfix, hinner, hrest⟩ := hl
    unfold flattenArgs
    cases a with
    | expr h2 as2 =>
      dsimp only
      by_cases hp : peq h2 h = true
      · rw [if_pos hp]
        obtain ⟨hfx, hin, hclean, hargsin⟩ := hinner
        exact innerList_append F _ _ hargsin (innerList_flatten F h rest hrest)
      · rw [if_neg hp]
        exact ⟨hfix, hinner, innerList_flatten F h rest hrest⟩
    | num n => dsimp only; exact ⟨hfix, hinner, innerList_flatten F h rest hrest⟩
    | str s => dsimp only; exact ⟨hfix, hinner, innerList_flatten F h rest hrest⟩
    | list l => dsimp only; exact ⟨hfix, hinner, innerList_flatten F h rest hrest⟩
    | tup l => dsimp only; exact ⟨hfix, hinner, innerList_flatten F h rest hrest⟩

theorem evListAux_fix (F : Nat) :
    ∀ args, InnerList F args → evListAux (ev F) args = pure args
  | .nil, _ => rfl
  | .cons a rest, hl => by
    obtain ⟨hfix, _, hrest⟩ := hl
    have ha : ev F a = pure a := hfix
    show (do
      let y ← ev F a
      let ys ← evListAux (ev F) rest
      pure (ValList.cons y ys)) = _
    rw [ha, evListAux_fix F rest hrest]
    rfl

theorem evListAux_ok_inv (E : Ev) :
    ∀ xs ys : ValList, (evListAux E xs).run = some (.ok ys) →
    List.Forall₂ (fun x y => (E x).run = some (.ok y)) xs.toList ys.toList
  | .nil, ys, h => by
    have h2 : ValList.nil = ys := run_pure_ok h
    subst h2
    exact List.Forall₂.nil
  | .cons x xs, ys, h => by
    obtain ⟨y, hy, h2⟩ := bind_ok_inv h
    obtain ⟨ys2, hys2, h3⟩ := bind_ok_inv h2
    have h4 : ValList.cons y ys2 = ys := run_pure_ok h3
    subst h4
    exact List.Forall₂.cons hy (evListAux_ok_inv E xs ys2 hys2)

theorem innerList_of_pointwise (F : Nat)
    (hstep : ∀ e r, (ev F e).run = some (.ok r) →
      (ev F r).run = some (.ok r) ∧ Inner F r) :
    ∀ xs ys : ValList,
    List.Forall₂ (fun x y => (ev F x).run = some (.ok y)) xs.toList ys.toList →
    InnerList F ys
  | _, .nil, _ => trivial
  | .nil, .cons y ys, h => by
    exact absurd h (by simp [ValList.toList])
  | .cons x xs, .cons y ys, h => by
    rw [ValList.toList, ValList.toList, List.forall₂_cons] at h
    obtain ⟨hxy, hrest⟩ := h
    obtain ⟨hfix, hin⟩ := hstep x y hxy
    exact ⟨hfix, hin, innerList_of_pointwise F hstep xs ys hrest⟩

/-- The main fixpoint lemma: a value returned by the evaluator at fuel `F`
re-evaluates to itself at the same fuel, and satisfies the hereditary
invariant `Inner F`. -/
theorem ev_fix : ∀ (F : Nat) (e r : Val), (ev F e).run = some (.ok r) →
    (ev F r).run = some (.ok r) ∧ Inner F r := by
  intro F
  induction F with
  | zero =>
    intro e r h
    exact absurd h (by simp [ev, noFuel, ExceptT.run_mk])
  | succ f ih =>
    intro e r h
    cases e with
    | num n =>
      have h2 : Val.num n = r := run_pure_ok h
      subst h2
      exact ⟨rfl, trivial⟩
    | str s =>
      have h2 : Val.str s = r := run_pure_ok h
      subst h2
      exact ⟨rfl, trivial⟩
    | list xs =>
      obtain ⟨ys, hys, hp⟩ := bind_ok_inv h
      have h2 : Val.list ys = r := run_pure_ok hp
      subst h2
      have hfa := evListAux_ok_inv (ev f) xs ys hys
      have hil : InnerList f ys := innerList_of_pointwise f ih xs ys hfa
      have hev : evListAux (ev f) ys = pure ys := evListAux_fix f ys hil
      refine ⟨?_, trivial⟩
      show (evalStep (ev f) (.list ys)).run = _
      simp [evalStep, hev]
    | tup xs =>
      obtain ⟨ys, hys, hp⟩ := bind_ok_inv h
      have h2 : Val.list ys = r := run_pure_ok hp
      subst h2
      have hfa := evListAux_ok_inv (ev f) xs ys hys
      have hil : InnerList f ys := innerList_of_pointwise f ih xs ys hfa
      have hev : evListAux (ev f) ys = pure ys := evListAux_fix f ys hil
      refine ⟨?_, trivial⟩
      show (evalStep (ev f) (.list ys)).run = _
      simp [evalStep, hev]
    | expr hd args =>
      obtain ⟨h2, hh2, hrest1⟩ := bind_ok_inv h
      obtain ⟨args2, hargs2, hrest2⟩ := bind_ok_inv hrest1
      dsimp only at hrest2
      have hpair := ih hd h2 hh2
      have hfa := evListAux_ok_inv (ev f) args args2 hargs2
      have hil2 : InnerList f args2 := innerList_of_pointwise f ih args args2 hfa
      have hf1 : 1 ≤ f := by
        cases f with
        | zero => exact absurd hh2 (by simp [ev, noFuel, ExceptT.run_mk])
        | succ f2 => omega
      by_cases hhash : hashable h2 = true
      · rw [if_neg (not_not_intro hhash)] at hrest2
        cases h2 with
        | list l => exact absurd hhash (by simp [hashable])
        | expr h3 a3 => exact absurd hhash (by simp [hashable])
        | num n2 =>
          have he1 : Val.expr (.num n2)
              (if isFlat (.num n2) then flattenArgs (.num n2) args2 else args2)
              = r := run_pure_ok hrest2
          rw [show isFlat (Val.num n2) = false from rfl] at he1
          simp only [Bool.false_eq_true, if_false] at he1
          subst he1
          have hhd : ev f (.num n2) = pure (.num n2) := hpair.1
          have hevl : evListAux (ev f) args2 = pure args2 := evListAux_fix f args2 hil2
          constructor
          · show (evalStep (ev f) _).run = _
            simp [evalStep, hhd, hevl, hashable, isFlat]
          · exact ⟨ev_mono f (f+1) (by omega) _ _ hpair.1,
              inner_mono (by omega) _ hpair.2,
              fun hcon => absurd hcon (by simp [isFlat]),
              innerList_mono (by omega) _ hil2⟩
        | tup l =>
          have he1 : Val.expr (.tup l)
              (if isFlat (.tup l) then flattenArgs (.tup l) args2 else args2)
              = r := run_pure_ok hrest2
          rw [show isFlat (Val.tup l) = false from rfl] at he1
          simp only [Bool.false_eq_true, if_false] at he1
          subst he1
          have hhd : ev f (.tup l) = pure (.tup l) := hpair.1
          have hevl : evListAux (ev f) args2 = pure args2 := evListAux_fix f args2 hil2
          have hhl : hashableList l = true := by simpa [hashable] using hhash
          constructor
          · show (evalStep (ev f) _).run = _
            simp [evalStep, hhd, hevl, hashable, isFlat, hhl]
          · exact ⟨ev_mono f (f+1) (by omega) _ _ hpair.1,
              inner_mono (by omega) _ hpair.2,
              fun hcon => absurd hcon (by simp [isFlat]),
              innerList_mono (by omega) _ hil2⟩
        | str hs =>
          by_cases hfl : isFlat (Val.str hs) = true
          · rw [if_pos hfl] at hrest2
            obtain ⟨o, ho, hfin⟩ := bind_ok_inv hrest2
            cases o with
            | some e2 =>
              obtain ⟨hfixr, hinr⟩ := ih e2 r hfin
              exact ⟨ev_mono f (f+1) (by omega) _ _ hfixr,
                inner_mono (by omega) _ hinr⟩
            | none =>
              have he1 : Val.expr (.str hs) (flattenArgs (.str hs) args2) = r :=
                run_pure_ok hfin
              subst he1
              have hnosame := noSameHead_flatten f hs hfl args2 hil2
              have hil3 : InnerList f (flattenArgs (.str hs) args2) :=
                innerList_flatten f _ args2 hil2
              have hflid : flattenArgs (.str hs) (flattenArgs (.str hs) args2)
                  = flattenArgs (.str hs) args2 := flattenArgs_id _ _ hnosame
              have hevl : evListAux (ev f) (flattenArgs (.str hs) args2)
                  = pure (flattenArgs (.str hs) args2) := evListAux_fix f _ hil3
              have hhd : ev f (.str hs) = pure (.str hs) := ev_str f hf1 hs
              have ho' : tryRules (ev f) (downvalues hs).reverse
                  (.expr (.str hs) (flattenArgs (.str hs) args2)) = pure none := ho
              constructor
              · show (evalStep (ev f) _).run = _
                simp [evalStep, hhd, hevl, hashable, hfl, hflid, ho']
              · exact ⟨by rw [ev_str (f+1) (by omega) hs]; rfl, trivial,
                  fun _ => hnosame, innerList_mono (by omega) _ hil3⟩
          · rw [if_neg hfl] at hrest2
            obtain ⟨o, ho, hfin⟩ := bind_ok_inv hrest2
            cases o with
            | some e2 =>
              obtain ⟨hfixr, hinr⟩ := ih e2 r hfin
              exact ⟨ev_mono f (f+1) (by omega) _ _ hfixr,
                inner_mono (by omega) _ hinr⟩
            | none =>
              have he1 : Val.expr (.str hs) args2 = r := run_pure_ok hfin
              subst he1
              have hfl' : isFlat (Val.str hs) = false := by
                simpa using hfl
              have hevl : evListAux (ev f) args2 = pure args2 :=
                evListAux_fix f args2 hil2
              have hhd : ev f (.str hs) = pure (.str hs) := ev_str f hf1 hs
              have ho' : tryRules (ev f) (downvalues hs).reverse
                  (.expr (.str hs) args2) = pure none := ho
              constructor
              · show (evalStep (ev f) _).run = _
                simp [evalStep, hhd, hevl, hashable, hfl', ho']
              · exact ⟨by rw [ev_str (f+1) (by omega) hs]; rfl, trivial,
                  fun hcon => absurd hcon hfl, innerList_mono (by omega) _ hil2⟩
      · rw [if_pos (by simpa using hhash)] at hrest2
        exact absurd hrest2 (by simp [ExceptT.run_throw])

/-- **C1.**  `evaluate` is idempotent on its defined results: whenever
evaluation of `e` terminates with a value `r` (neither raising an
exception nor exhausting the fuel), re-evaluating `r` with the same fuel
terminates and returns `r` itself — `evaluate(evaluate(e)) ==
evaluate(e)`.  (Structural equality of the embedding is Python `==` on
the engine's `Expr` trees.) -/
theorem C1_idempotent (e r : Val) (f : Nat)
    (h : (ev f e).run = some (.ok r)) :
    (ev f r).run = some (.ok r) :=
  (ev_fix f e r h).1

/-- **C1, witness**: `evaluate(Plus(2, 3))` is `5`, and re-evaluating the
result `5` returns `5` again. -/
theorem C1_idempotent_witness :
    (ev 10 (iV 5)).run = some (.ok (iV 5)) :=
  C1_idempotent (mkE "Plus" [iV 2, iV 3]) (iV 5) 10 (by with_unfolding_all rfl)

end Pyquiz
